import Mathlib

/-!
Verification of the DAG scheduling and execution engine of the yoke-cli
repository: the dependency-resolution scheduler (LangGraph router in
`src/runtime/graph/buildGraph.ts` and the sequential loop in the
`WorkflowRuntime` of `src/runtime/graph/nodes.ts`), the node executors
(`src/runtime/steps/exec.ts`, `task.ts`, `map.ts`), the run store
(`src/runtime/store/run-store.ts`) and the resume protocol
(`src/runtime/graph/runtime.ts`).

Statuses, node definitions and run state are translated directly from
`src/runtime/graph/state.ts` and `src/schema/types.ts`.
-/

namespace Yoke

/-- NodeStatus from `src/runtime/graph/state.ts`:
`'PENDING' | 'RUNNING' | 'CACHED' | 'SUCCESS' | 'FAILED' | 'SKIPPED'`. -/

inductive NodeStatus where
  | PENDING
  | RUNNING
  | CACHED
  | SUCCESS
  | FAILED
  | SKIPPED
deriving DecidableEq

open NodeStatus

/-- The scheduling-relevant part of a workflow node (`BaseNode` in
`src/schema/types.ts`): its unique `id` and its dependency list `deps`
(the JS `deps?: string[]` with `node.deps || []` at every use site, so a
missing list is the empty list). -/

structure NodeDef where
  id : String
  deps : List String
deriving DecidableEq

/-- A workflow definition restricted to the node list (`WorkflowDefinition.nodes`). -/

structure Workflow where
  nodes : List NodeDef

/-- The list of node ids of a workflow, in declaration order. -/

def Workflow.ids (wf : Workflow) : List String :=
  wf.nodes.map (fun n => n.id)

/-!
## The LangGraph router node (`src/runtime/graph/buildGraph.ts`, lines 40-91)

The router receives the current `state.statuses`.  A node id absent from the
statuses object lands in none of the `completed`/`failed`/`skipped` sets and
fails the `=== 'RUNNING'` test, i.e. it behaves exactly like a `PENDING`
entry; so statuses are modeled as a total map `String → NodeStatus` whose
default is `PENDING`.  The `completed`/`failed`/`skipped` sets are computed
once, before the per-node loop, and `statusUpdates` does not feed back into
them, so each node is judged against the same snapshot.
-/

/-- One pass of the router loop over the remaining `workflow.nodes`, returning
`(ready, statusUpdates)`: the ids pushed onto `ready` and the ids marked
`SKIPPED` in `statusUpdates`, both in node order. -/

def routerGo (st : String → NodeStatus) : List NodeDef → List String × List String
  | [] => ([], [])
  | n :: rest =>
    let acc := routerGo st rest
    if st n.id = SUCCESS ∨ st n.id = CACHED ∨ st n.id = FAILED ∨ st n.id = SKIPPED then
      acc
    else if st n.id = RUNNING then
      acc
    else if ∃ d ∈ n.deps, st d = FAILED ∨ st d = SKIPPED then
      (acc.1, n.id :: acc.2)
    else if ∀ d ∈ n.deps, st d = SUCCESS ∨ st d = CACHED then
      (n.id :: acc.1, acc.2)
    else
      acc

/-- The router node handler of `buildGraphFromWorkflow`: computes the ready
frontier and the `SKIPPED` status updates from the current statuses. -/

def router (wf : Workflow) (st : String → NodeStatus) : List String × List String :=
  routerGo st wf.nodes

/-- A concrete three-node workflow used by the witnesses: `a` has no
dependencies, `b` depends on `a`, `c` depends on the unknown id `x`. -/

def wfW : Workflow :=
  ⟨[⟨"a", []⟩, ⟨"b", ["a"]⟩, ⟨"c", ["x"]⟩]⟩

/-- A concrete status map: `a` is `SUCCESS`, everything else `PENDING`. -/

def stW : String → NodeStatus :=
  fun id => if id = "a" then SUCCESS else PENDING

/-!
## The sequential `WorkflowRuntime.run` loop (`src/runtime/graph/nodes.ts`)

The sequential runtime drives three grow-only sets `completed` (statuses
`SUCCESS`/`CACHED`), `failed` and `skipped`; a node in none of them is
`PENDING` (the `=== 'RUNNING'` guard can never fire at the top of the loop
because `executeNode` always overwrites `RUNNING` with a terminal status
before returning, so the sets determine every observable status).  Unlike the
router, `skipped.add(node.id)` inside the per-node loop feeds back into the
dependency checks of nodes later in the same pass.  Node execution is
abstracted by an oracle `execOk : String → Bool` telling whether
`executeNode` resolves (adds to `completed`) or throws (adds to `failed`).
-/

structure LoopState where
  completed : List String
  failed : List String
  skipped : List String
deriving DecidableEq

/-- A node id is processed when it is in one of the three sets (the loop's
`completed.has || failed.has || skipped.has` test). -/

def LoopState.processed (s : LoopState) (id : String) : Prop :=
  id ∈ s.completed ∨ id ∈ s.failed ∨ id ∈ s.skipped

instance (s : LoopState) (id : String) : Decidable (s.processed id) := by
  unfold LoopState.processed
  infer_instance

/-- The loop-condition quantity `completed.size + failed.size + skipped.size`. -/

def LoopState.count (s : LoopState) : Nat :=
  s.completed.length + s.failed.length + s.skipped.length

/-- One pass of the ready-computation loop (`for (const node of this.workflow.nodes)`),
accumulating `ready` and mutating `skipped` as it goes. -/

def tickGo : LoopState → List String → List NodeDef → List String × LoopState
  | s, ready, [] => (ready, s)
  | s, ready, n :: rest =>
    if s.processed n.id then tickGo s ready rest
    else if ∃ d ∈ n.deps, d ∈ s.failed ∨ d ∈ s.skipped then
      tickGo { s with skipped := s.skipped ++ [n.id] } ready rest
    else if ∀ d ∈ n.deps, d ∈ s.completed then
      tickGo s (ready ++ [n.id]) rest
    else
      tickGo s ready rest

/-- One scheduler tick of the sequential loop: computes the ready list and
marks newly skipped nodes. -/

def seqTick (wf : Workflow) (s : LoopState) : List String × LoopState :=
  tickGo s [] wf.nodes

/-- The dispatch loop `for (const nodeId of ready) { try executeNode; completed.add }
catch { failed.add }`. -/

def seqDispatch (execOk : String → Bool) : LoopState → List String → LoopState
  | s, [] => s
  | s, id :: rest =>
    if execOk id then seqDispatch execOk { s with completed := s.completed ++ [id] } rest
    else seqDispatch execOk { s with failed := s.failed ++ [id] } rest

/-- The deadlock error message thrown by `WorkflowRuntime.run`. -/

def deadlockMsg (ids : List String) : String :=
  "Workflow deadlock detected. Nodes still pending but none are ready: " ++
    String.intercalate ", " ids

inductive RunResult where
  | outOfFuel
  | deadlock (message : String) (pendingIds : List String)
  | finished (s : LoopState)
deriving DecidableEq

/-- The `while (completed.size + failed.size + skipped.size < nodes.length)` loop,
written with fuel (the loop strictly reduces the number of unprocessed nodes
whenever it recurses, so `nodes.length + 1` fuel always suffices, see
`seqRun_not_outOfFuel`). -/

def seqRunLoop (wf : Workflow) (execOk : String → Bool) : Nat → LoopState → RunResult
  | 0, _ => .outOfFuel
  | fuel + 1, s =>
    if s.count < wf.nodes.length then
      if (seqTick wf s).1.isEmpty then
        if (wf.nodes.filter (fun n => decide (¬ (seqTick wf s).2.processed n.id))).isEmpty then
          .finished (seqTick wf s).2
        else
          .deadlock
            (deadlockMsg ((wf.nodes.filter
              (fun n => decide (¬ (seqTick wf s).2.processed n.id))).map (fun n => n.id)))
            ((wf.nodes.filter
              (fun n => decide (¬ (seqTick wf s).2.processed n.id))).map (fun n => n.id))
      else
        seqRunLoop wf execOk fuel (seqDispatch execOk (seqTick wf s).2 (seqTick wf s).1)
    else .finished s

/-- A whole sequential run from the all-`PENDING` initial state. -/

def seqRun (wf : Workflow) (execOk : String → Bool) : RunResult :=
  seqRunLoop wf execOk (wf.nodes.length + 1) ⟨[], [], []⟩

/-- Well-formedness of the three status sets of the sequential loop: no
duplicates and pairwise disjoint (each node has a single status). -/

structure LoopState.Wf (s : LoopState) : Prop where
  nodupC : s.completed.Nodup
  nodupF : s.failed.Nodup
  nodupK : s.skipped.Nodup
  disjCF : ∀ id ∈ s.completed, id ∉ s.failed
  disjCK : ∀ id ∈ s.completed, id ∉ s.skipped
  disjFK : ∀ id ∈ s.failed, id ∉ s.skipped

/-- The invariant of the sequential scheduler loop: the status sets are
well-formed, contain only workflow node ids, and every node that was
dispatched (completed or failed) had all its dependencies completed. -/

structure SchedInv (wf : Workflow) (s : LoopState) : Prop where
  wfState : s.Wf
  subIds : ∀ id, s.processed id → id ∈ wf.ids
  depsDone : ∀ n ∈ wf.nodes, (n.id ∈ s.completed ∨ n.id ∈ s.failed) →
    ∀ d ∈ n.deps, d ∈ s.completed

/-- Transitive dependents: `DependentOn wf a b` holds when node `b` is reachable
from `a` by following dependency edges upwards, i.e. `b` (transitively) depends
on `a`. -/

inductive DependentOn (wf : Workflow) : String → String → Prop where
  | direct {a : String} {n : NodeDef} (hn : n ∈ wf.nodes) (ha : a ∈ n.deps) :
      DependentOn wf a n.id
  | step {a b : String} {n : NodeDef} (hd : DependentOn wf a b) (hn : n ∈ wf.nodes)
      (hb : b ∈ n.deps) : DependentOn wf a n.id

/-- A two-node dependency cycle: neither node can ever become ready. -/

def wfCyc : Workflow :=
  ⟨[⟨"a", ["b"]⟩, ⟨"b", ["a"]⟩]⟩

/-- An execution oracle under which every dispatched node succeeds. -/

def execAll : String → Bool := fun _ => true

/-- A linear workflow `a → b → c` used by the C4 witness. -/

def wfLin : Workflow :=
  ⟨[⟨"a", []⟩, ⟨"b", ["a"]⟩, ⟨"c", ["b"]⟩]⟩

/-- An execution oracle under which node `a` fails and every other node
succeeds. -/

def execFailA : String → Bool := fun id => decide (id ≠ "a")

/-!
## The resume protocol (`src/runtime/graph/runtime.ts`, resume branch)

On resume, `WorkflowRuntime.run` loads `checkpointState.values`, resets every
`FAILED` or `SKIPPED` node status to `PENDING` via `statusUpdates` spread over
the checkpointed statuses, and sets `failed: undefined`.
-/

/-- The checkpointed `RunState` fields consumed by the resume branch: the
per-node statuses and the single failure record `{nodeId, error}`. -/

structure CheckpointValues where
  statuses : String → NodeStatus
  failed : Option (String × String)

/-- The initial state handed to `graph.invoke` on resume (same shape). -/

structure ResumeState where
  statuses : String → NodeStatus
  failed : Option (String × String)

/-- The resume branch of `WorkflowRuntime.run`: spread the checkpoint statuses,
override every `FAILED`/`SKIPPED` entry with `PENDING`, and clear `failed`. -/

def resumeInitialState (cp : CheckpointValues) : ResumeState :=
  { statuses := fun id =>
      if cp.statuses id = FAILED ∨ cp.statuses id = SKIPPED then PENDING
      else cp.statuses id,
    failed := none }

/-- A concrete checkpoint used by the C2 witness: `a` succeeded, `b` failed,
`c` was skipped, everything else pending; the failure slot is occupied. -/

def cp0 : CheckpointValues :=
  ⟨fun id =>
      if id = "a" then SUCCESS
      else if id = "b" then FAILED
      else if id = "c" then SKIPPED
      else PENDING,
    some ("b", "exec failed (1): false")⟩

/-!
## Node executors (`src/runtime/steps/exec.ts`, `src/runtime/steps/task.ts`)

The executors are modeled over explicit oracles: the content hash function,
the cache store contents, the spawned process behaviour, the file system and
the agent capability.  Each run returns the `NodeOutput` (or the thrown error
message) together with an observable trace: whether the process was spawned /
the agent invoked, whether the process was killed, and the cache reads and
writes that were performed.
-/

/-- The opaque `unknown` result value carried by a `NodeOutput`. -/

inductive ResultVal where
  | std (stdout stderr : String) (exitCode : Int)
  | json (text : String)
  | agent (payload : String)
  | arr (results : List ResultVal)

/-- NodeOutput from `src/runtime/graph/state.ts`: result, artifacts, optional
logs, optional cache-key hash, optional cached flag. -/

structure NodeOutput where
  result : ResultVal
  artifacts : List String
  logs : Option (List String)
  hash : Option String
  cached : Option Bool

/-- Final status computed by `createNodeHandler` (`src/runtime/graph/nodes.ts`,
line 105): `output.cached ? 'CACHED' : 'SUCCESS'`. -/

def statusOfOutput (o : NodeOutput) : NodeStatus :=
  if o.cached = some true then CACHED else SUCCESS

/-- The `produces` verification spec of an exec node
(`produces?.files` and `produces?.json?.resultFromFile`). -/

structure ProducesSpec where
  files : List String
  resultFromFile : Option String
deriving DecidableEq

/-- ExecNode from `src/schema/types.ts` (template-resolved). -/

structure ExecNode where
  command : String
  args : List String
  cwd : Option String
  env : List (String × String)
  produces : Option ProducesSpec
  deterministic : Option Bool
  timeout : Option Nat
deriving DecidableEq

/-- The JS `a || b` idiom on an optional string (empty string is falsy). -/

def jsOr (o : Option String) (d : String) : String :=
  match o with
  | none => d
  | some s => if s = "" then d else s

/-- The payload hashed by `hashInputs` in `runExec`:
`{kind:'exec', command, args, cwd, env, produces}`. -/

structure ExecKeyPayload where
  command : String
  args : List String
  cwd : String
  env : List (String × String)
  produces : Option ProducesSpec
deriving DecidableEq

/-- Behaviour of the spawned child process: its exit code, captured streams,
and the time (ms) at which its `close` event fires. -/

structure ProcessResult where
  exitCode : Int
  stdout : String
  stderr : String
  closeTimeMs : Nat

/-- The collaborators of `runExec`: hash function, `process.cwd()`, path
resolution, cache contents, process behaviour and file system. `readJson`
models `fs.readFile` + `JSON.parse` (an error is the thrown message). -/

structure ExecWorld where
  hashFn : ExecKeyPayload → String
  procCwd : String
  resolvePath : String → String
  cache : String → Option NodeOutput
  proc : ProcessResult
  fileOk : String → Bool
  readJson : String → Except String String

/-- Observable outcome of one `runExec` call. -/

structure ExecTrace where
  res : Except String NodeOutput
  spawned : Bool
  killed : Bool
  cacheReads : List String
  cacheWrites : List (String × NodeOutput)

/-- The cache key of an exec node (`hashInputs` call at the top of `runExec`,
with `cwd: spec.cwd || process.cwd()`, `args: spec.args || []`,
`env: spec.env || {}`). -/

def execKey (w : ExecWorld) (spec : ExecNode) : String :=
  w.hashFn ⟨spec.command, spec.args, jsOr spec.cwd w.procCwd, spec.env, spec.produces⟩

/-- The `produces.files` existence loop: resolve each declared file, fail with
`Expected file ... was not produced` on the first missing one. -/

def checkArtifacts (w : ExecWorld) : List String → Except String (List String)
  | [] => .ok []
  | f :: rest =>
    if w.fileOk (w.resolvePath f) then
      match checkArtifacts w rest with
      | .ok ps => .ok (w.resolvePath f :: ps)
      | .error e => .error e
    else .error ("Expected file " ++ f ++ " was not produced")

/-- The tail of `runExec` once the process has closed in time: non-zero exit
fails with the captured (trimmed) stderr in the message; then artifact
verification; then the structured result (parsed JSON file if configured,
otherwise `{stdout, stderr, exitCode}`); a fresh output always carries
`hash: key` and `cached: false`, and is written back to the cache unless
`deterministic === false`. -/

def runExecClosed (w : ExecWorld) (spec : ExecNode) (key : String) : ExecTrace :=
  if w.proc.exitCode ≠ 0 then
    { res := .error ("exec failed (" ++ toString w.proc.exitCode ++ "): " ++
        spec.command ++ " " ++ String.intercalate " " spec.args ++ "\n" ++
        w.proc.stderr.trim),
      spawned := true, killed := false, cacheReads := [], cacheWrites := [] }
  else
    match checkArtifacts w (match spec.produces with | some p => p.files | none => []) with
    | .error e =>
      { res := .error e, spawned := true, killed := false,
        cacheReads := [], cacheWrites := [] }
    | .ok artifacts =>
      match (match spec.produces with | some p => p.resultFromFile | none => none) with
      | some fpath =>
        match w.readJson (w.resolvePath fpath) with
        | .error e =>
          { res := .error e, spawned := true, killed := false,
            cacheReads := [], cacheWrites := [] }
        | .ok text =>
          let output : NodeOutput :=
            { result := .json text, artifacts := artifacts, logs := none,
              hash := some key, cached := some false }
          { res := .ok output, spawned := true, killed := false, cacheReads := [],
            cacheWrites :=
              if spec.deterministic ≠ some false then [(key, output)] else [] }
      | none =>
        let output : NodeOutput :=
          { result := .std w.proc.stdout.trim w.proc.stderr.trim w.proc.exitCode,
            artifacts := artifacts, logs := none, hash := some key, cached := some false }
        { res := .ok output, spawned := true, killed := false, cacheReads := [],
          cacheWrites :=
            if spec.deterministic ≠ some false then [(key, output)] else [] }

/-- The spawned-process part of `runExec`: the timeout timer (armed when
`spec.timeout && spec.timeout > 0`) fires — killing the child with `SIGKILL`
and rejecting with the timeout error — exactly when it elapses before the
`close` event. -/

def runExecFresh (w : ExecWorld) (spec : ExecNode) (key : String) : ExecTrace :=
  match spec.timeout with
  | some t =>
    if 0 < t ∧ t < w.proc.closeTimeMs then
      { res := .error ("exec timeout after " ++ toString t ++ "ms"),
        spawned := true, killed := true, cacheReads := [], cacheWrites := [] }
    else runExecClosed w spec key
  | none => runExecClosed w spec key

/-- runExec (`src/runtime/steps/exec.ts`): unless `deterministic === false`,
consult the cache first and, on a hit, return the stored output with
`hash: key, cached: true` without spawning anything; otherwise spawn. -/

def runExec (w : ExecWorld) (spec : ExecNode) : ExecTrace :=
  if spec.deterministic ≠ some false then
    match w.cache (execKey w spec) with
    | some hit =>
      { res := .ok { hit with hash := some (execKey w spec), cached := some true },
        spawned := false, killed := false,
        cacheReads := [execKey w spec], cacheWrites := [] }
    | none =>
      let fresh := runExecFresh w spec (execKey w spec)
      { fresh with cacheReads := [execKey w spec] }
  else runExecFresh w spec (execKey w spec)

/-- TaskNode from `src/schema/types.ts` (template-resolved), restricted to the
fields `runTask` reads. -/

structure TaskNode where
  agent : String
  prompt : String
  inputs : List (String × String)
  env : List (String × String)
  cwd : Option String
  timeout : Option Nat
  deterministic : Option Bool
deriving DecidableEq

/-- The payload hashed by `hashInputs` in `runTask`:
`{kind:'task', agent: agent.name, prompt, inputs, env}`. -/

structure TaskKeyPayload where
  agent : String
  prompt : String
  inputs : List (String × String)
  env : List (String × String)
deriving DecidableEq

/-- What the agent capability returns (`agent.run`), or the thrown error. -/

structure AgentResult where
  result : ResultVal
  logs : Option (List String)
  createdArtifacts : Option (List String)

/-- The collaborators of `runTask`: hash function, cache contents, the resolved
agent's name, and the behaviour of its `run` call. -/

structure TaskWorld where
  hashFn : TaskKeyPayload → String
  cache : String → Option NodeOutput
  agentName : String
  agentRun : Except String AgentResult

/-- Observable outcome of one `runTask` call. -/

structure TaskTrace where
  res : Except String NodeOutput
  agentInvoked : Bool
  cacheReads : List String
  cacheWrites : List (String × NodeOutput)

/-- The cache key of a task node. -/

def taskKey (w : TaskWorld) (spec : TaskNode) : String :=
  w.hashFn ⟨w.agentName, spec.prompt, spec.inputs, spec.env⟩

/-- The agent-invocation tail of `runTask`: run the agent, build the output
(`hash: cacheKey, cached: false`, artifacts defaulting to `[]`), and write it
back to the cache only when `spec.deterministic` is (truthy) `true`. -/

def runTaskFresh (w : TaskWorld) (spec : TaskNode) (key : String) : TaskTrace :=
  match w.agentRun with
  | .error e =>
    { res := .error e, agentInvoked := true, cacheReads := [], cacheWrites := [] }
  | .ok r =>
    let output : NodeOutput :=
      { result := r.result, artifacts := r.createdArtifacts.getD [],
        logs := r.logs, hash := some key, cached := some false }
    { res := .ok output, agentInvoked := true, cacheReads := [],
      cacheWrites :=
        if spec.deterministic = some true then [(key, output)] else [] }

/-- runTask (`src/runtime/steps/task.ts`): the cache is consulted only when
`spec.deterministic` is truthy (`true`); on a hit the agent is never invoked
and the stored output is returned with `hash: cacheKey, cached: true`. -/

def runTask (w : TaskWorld) (spec : TaskNode) : TaskTrace :=
  if spec.deterministic = some true then
    match w.cache (taskKey w spec) with
    | some hit =>
      { res := .ok { hit with hash := some (taskKey w spec), cached := some true },
        agentInvoked := false, cacheReads := [taskKey w spec], cacheWrites := [] }
    | none =>
      let fresh := runTaskFresh w spec (taskKey w spec)
      { fresh with cacheReads := [taskKey w spec] }
  else runTaskFresh w spec (taskKey w spec)

/-!
## Fan-out (`src/runtime/steps/map.ts`)

`runMap` resolves the `over` expression to an ordered item list (template
resolution is an external collaborator), wraps each item's sub-spec execution
in a `p-limit(5)` limiter, runs the wrapped tasks under `Promise.all`, and
collects `itemOutput.result` per item.  The cooperative concurrency of
p-limit + `Promise.all` is modeled by a deterministic discrete scheduler:
each task has a duration (number of scheduler steps its body takes — the
external completion-time nondeterminism) and an outcome; at every step the
limiter first starts queued tasks in submission order while fewer than
`limit` are running, then every running task advances one step and those that
finish move to the completion list, in completion order.  `Promise.all`
stores each settled value at its original index, so the collected results are
read back by index, not by completion order.
-/

/-- One fan-out item task: the number of scheduler steps its body takes and
the body's outcome (the per-item closure of `runMap`: template-resolve the
sub-spec with `item` bound, then `runExec`/`runTask`, then `.result`). -/

structure MapTask (α : Type) where
  dur : Nat
  outcome : Except String α

/-- The limiter state: tasks not yet started (in submission order), running
tasks `(index, remaining steps, outcome)`, and settled tasks in completion
order. -/

structure MapSched (α : Type) where
  queue : List (Nat × MapTask α)
  running : List (Nat × Nat × Except String α)
  done : List (Nat × Except String α)

/-- p-limit's dequeue: start queued tasks, in order, while the number of
running tasks is below the limit. -/

def fillRun {α : Type} (limit : Nat) :
    List (Nat × MapTask α) → List (Nat × Nat × Except String α) →
      List (Nat × MapTask α) × List (Nat × Nat × Except String α)
  | [], run => ([], run)
  | t :: ts, run =>
    if run.length < limit then fillRun limit ts (run ++ [(t.1, t.2.dur, t.2.outcome)])
    else (t :: ts, run)

/-- Advance every running task by one step; tasks whose remaining time is
exhausted settle, in running order. -/

def tickRun {α : Type} :
    List (Nat × Nat × Except String α) →
      List (Nat × Nat × Except String α) × List (Nat × Except String α)
  | [] => ([], [])
  | (i, rem, out) :: rest =>
    if rem ≤ 1 then ((tickRun rest).1, (i, out) :: (tickRun rest).2)
    else ((i, rem - 1, out) :: (tickRun rest).1, (tickRun rest).2)

/-- One scheduler step: dequeue up to the limit, then advance. -/

def schedStep {α : Type} (limit : Nat) (s : MapSched α) : MapSched α :=
  { queue := (fillRun limit s.queue s.running).1,
    running := (tickRun (fillRun limit s.queue s.running).2).1,
    done := s.done ++ (tickRun (fillRun limit s.queue s.running).2).2 }

/-- Run the scheduler to quiescence (fuel-based; see `schedRun_terminates`). -/

def schedRun {α : Type} (limit : Nat) : Nat → MapSched α → Option (List (Nat × Except String α))
  | 0, _ => none
  | fuel + 1, s =>
    if s.queue.isEmpty ∧ s.running.isEmpty then some s.done
    else schedRun limit fuel (schedStep limit s)

/-- `Promise.all` rejection: the first rejection in completion order. -/

def firstErrorIn {α : Type} : List (Nat × Except String α) → Option String
  | [] => none
  | (_, .error e) :: _ => some e
  | (_, .ok _) :: rest => firstErrorIn rest

/-- `Promise.all` resolution: read the settled value stored at index `i`. -/

def lookupDone {α : Type} (done : List (Nat × Except String α)) (i : Nat) : Option α :=
  match done.find? (fun p => decide (p.1 = i)) with
  | some (_, .ok v) => some v
  | _ => none

/-- Collect the settled values at indices `0..n-1`, in index order. -/

def collectResults {α : Type} (n : Nat) (done : List (Nat × Except String α)) :
    Option (List α) :=
  (List.range n).mapM (lookupDone done)

/-- The outcome of item `i`'s task: apply the per-item closure to the `i`-th
item. -/

def mapOutcome {α : Type} (items : List α) (body : Nat → α → Except String ResultVal) :
    Nat → Except String ResultVal :=
  fun i =>
    match items[i]? with
    | some x => body i x
    | none => .error "index out of range"

/-- The initial limiter state: all item tasks queued in input order, nothing
running or settled yet. -/

def mapInit {α : Type} (items : List α) (body : Nat → α → Except String ResultVal)
    (dur : Nat → Nat) : MapSched ResultVal :=
  ⟨(List.range items.length).map (fun i => (i, ⟨dur i, mapOutcome items body i⟩)),
    [], []⟩

/-- The successful fan-out node output: the array of per-item results, the
`Processed n items` log line, no cache key, not cached. -/

def mapOutputOf (n : Nat) (results : List ResultVal) : NodeOutput :=
  { result := .arr results, artifacts := [],
    logs := some ["Processed " ++ toString n ++ " items"],
    hash := none, cached := some false }

/-- runMap (`src/runtime/steps/map.ts`): run one task per item under the
`p-limit(5)` limiter and `Promise.all`; any item rejection rejects the whole
node; on success the node output's `result` is the array of per-item results
in input order.  `body i x` is the per-item closure, `dur i` the external
completion time of item `i`, `fuel` the scheduler-model fuel. -/

def runMap {α : Type} (items : List α) (body : Nat → α → Except String ResultVal)
    (dur : Nat → Nat) (fuel : Nat) : Option (Except String NodeOutput) :=
  match schedRun 5 fuel (mapInit items body dur) with
  | none => none
  | some done =>
    match firstErrorIn done with
    | some e => some (.error e)
    | none =>
      match collectResults items.length done with
      | none => none
      | some results => some (.ok (mapOutputOf items.length results))

/-!
## Run store (`src/runtime/store/run-store.ts`)
-/

/-- The persisted run metadata, restricted to the scalar fields (the per-node
records are irrelevant to the thread-id protocol). -/

structure RunMetadata where
  workflowName : String
  threadId : String
  checkpointDbPath : String
  startTime : String
  endTime : Option String
  status : String
deriving DecidableEq

structure RunStore where
  runDir : String
  metadata : RunMetadata
deriving DecidableEq

/-- The `RunStore` constructor: `threadId: threadId || this.generateThreadId()`
(JS `||`, so an empty string also triggers generation); `gen` is the value
`generateThreadId()` would return and `now` the current ISO timestamp. -/

def RunStore.create (gen now runDir workflowName : String) (threadId : Option String) :
    RunStore :=
  { runDir := runDir,
    metadata :=
      { workflowName := workflowName, threadId := jsOr threadId gen,
        checkpointDbPath := runDir ++ "/checkpoints.db",
        startTime := now, endTime := none, status := "running" } }

def RunStore.getThreadId (s : RunStore) : String := s.metadata.threadId

/-- `RunStore.loadForResume`: read the stored metadata, construct a store with
the stored thread id, then overwrite the whole metadata with the stored one. -/

def RunStore.loadForResume (gen now runDir : String) (stored : RunMetadata) : RunStore :=
  let store := RunStore.create gen now runDir stored.workflowName (some stored.threadId)
  { store with metadata := stored }

/-- A cache entry exactly as a previous fresh `runExec` stored it
(`hash` equal to its key and `cached: false`). -/

def storedOutput : NodeOutput :=
  { result := .std "out" "" 0, artifacts := [], logs := none,
    hash := some "k", cached := some false }

/-- A world whose cache holds `storedOutput` under key `k` (the only key the
hash function produces). -/

def hitWorld : ExecWorld :=
  { hashFn := fun _ => "k", procCwd := "/", resolvePath := fun p => p,
    cache := fun key => if key = "k" then some storedOutput else none,
    proc := { exitCode := 0, stdout := "fresh", stderr := "", closeTimeMs := 1 },
    fileOk := fun _ => true, readJson := fun _ => .error "unused" }

/-- An exec node with the determinism flag left unset. -/

def hitSpec : ExecNode :=
  { command := "echo", args := [], cwd := none, env := [], produces := none,
    deterministic := none, timeout := none }

/-- An exec node that explicitly opts out of determinism. -/

def ndSpec : ExecNode :=
  { command := "echo", args := [], cwd := none, env := [], produces := none,
    deterministic := some false, timeout := none }

/-- The fresh output the non-deterministic node produces in `hitWorld`. -/

def freshNdOutput : NodeOutput :=
  { result := .std "fresh".trim "".trim 0, artifacts := [], logs := none,
    hash := some "k", cached := some false }

/-- The output `runMap` produces on an empty item list. -/

def mapEmptyOutput : NodeOutput :=
  { result := .arr [], artifacts := [],
    logs := some ["Processed " ++ toString 0 ++ " items"],
    hash := none, cached := some false }

/-- A world whose process would close only after 100 ms, with exit code 0. -/

def slowWorld : ExecWorld :=
  { hitWorld with
    cache := fun _ => none,
    proc := { exitCode := 0, stdout := "", stderr := "", closeTimeMs := 100 } }

/-- An exec node with a 5 ms timeout. -/

def timedSpec : ExecNode :=
  { hitSpec with command := "sleep", args := ["1"], timeout := some 5 }

/-- A world whose process exits immediately with code 1 and stderr `boom`. -/

def failWorld : ExecWorld :=
  { hitWorld with
    cache := fun _ => none,
    proc := { exitCode := 1, stdout := "", stderr := "boom", closeTimeMs := 1 } }

/-- An exec node running `false` with no timeout. -/

def failSpec : ExecNode :=
  { hitSpec with command := "false" }

/-- The scheduler invariant: every queued/running/settled task carries the
outcome assigned to its index (and any index property `R` bundles), and every
index below `n` is present somewhere. -/

def MapInv {α : Type} (R : Nat → Except String α → Prop) (n : Nat) (s : MapSched α) : Prop :=
  (∀ p ∈ s.queue, R p.1 p.2.outcome) ∧
  (∀ r ∈ s.running, R r.1 r.2.2) ∧
  (∀ d ∈ s.done, R d.1 d.2) ∧
  (∀ i, i < n → i ∈ s.queue.map (fun p => p.1) ∨ i ∈ s.running.map (fun r => r.1) ∨
    i ∈ s.done.map (fun d => d.1))

/-- Three items for the fan-out witness. -/

def itemsW : List String := ["a", "b", "c"]

/-- A per-item body that wraps each item. -/

def bodyW : Nat → String → Except String ResultVal := fun _ x => .ok (.agent x)

/-- A per-item body whose second item fails. -/

def bodyFailW : Nat → String → Except String ResultVal :=
  fun i x => if i = 1 then .error "item failed" else .ok (.agent x)

/-- Completion times that make the items finish in reverse input order. -/

def durW : Nat → Nat := fun i => 3 - i

/-- The expected per-item results, by input position. -/

def gW : Nat → ResultVal := fun i => .agent (itemsW.getD i "")

theorem routerGo_ready_sub (st : String → NodeStatus) (l : List NodeDef) (id : String)
    (h : id ∈ (routerGo st l).1) : id ∈ l.map (fun n => n.id) := by
  induction l with
  | nil => simp [routerGo] at h
  | cons n rest ih =>
    rw [List.map_cons]
    simp only [routerGo] at h
    split_ifs at h with h1 h2 h3 h4
    · exact List.mem_cons_of_mem _ (ih h)
    · exact List.mem_cons_of_mem _ (ih h)
    · exact List.mem_cons_of_mem _ (ih h)
    · rcases List.mem_cons.mp h with h | h
      · exact h ▸ List.mem_cons_self _ _
      · exact List.mem_cons_of_mem _ (ih h)
    · exact List.mem_cons_of_mem _ (ih h)

theorem routerGo_skips_sub (st : String → NodeStatus) (l : List NodeDef) (id : String)
    (h : id ∈ (routerGo st l).2) : id ∈ l.map (fun n => n.id) := by
  induction l with
  | nil => simp [routerGo] at h
  | cons n rest ih =>
    rw [List.map_cons]
    simp only [routerGo] at h
    split_ifs at h with h1 h2 h3 h4
    · exact List.mem_cons_of_mem _ (ih h)
    · exact List.mem_cons_of_mem _ (ih h)
    · rcases List.mem_cons.mp h with h | h
      · exact h ▸ List.mem_cons_self _ _
      · exact List.mem_cons_of_mem _ (ih h)
    · exact List.mem_cons_of_mem _ (ih h)
    · exact List.mem_cons_of_mem _ (ih h)

/-- Every status other than the five named in the router guards is `PENDING`. -/

theorem status_eq_pending_of_not_others (s : NodeStatus)
    (h1 : ¬(s = SUCCESS ∨ s = CACHED ∨ s = FAILED ∨ s = SKIPPED)) (h2 : s ≠ RUNNING) :
    s = PENDING := by
  cases s <;> simp_all

theorem routerGo_ready_iff (st : String → NodeStatus) (l : List NodeDef)
    (hnodup : (l.map (fun n => n.id)).Nodup) (n : NodeDef) (hn : n ∈ l) :
    n.id ∈ (routerGo st l).1 ↔
      st n.id = PENDING ∧ ∀ d ∈ n.deps, st d = SUCCESS ∨ st d = CACHED := by
  induction l with
  | nil => simp at hn
  | cons m rest ih =>
    simp only [List.map_cons, List.nodup_cons] at hnodup
    rcases List.mem_cons.mp hn with rfl | hn'
    · have hnotin : n.id ∉ (routerGo st rest).1 := fun hc => hnodup.1 (routerGo_ready_sub st rest n.id hc)
      simp only [routerGo]
      split_ifs with h1 h2 h3 h4
      · constructor
        · intro hc; exact absurd hc hnotin
        · rintro ⟨hp, -⟩; rcases h1 with h | h | h | h <;> simp [hp] at h
      · constructor
        · intro hc; exact absurd hc hnotin
        · rintro ⟨hp, -⟩; rw [hp] at h2; exact absurd h2 (by simp)
      · constructor
        · intro hc; exact absurd hc hnotin
        · rintro ⟨-, hall⟩
          obtain ⟨d, hd, hbad⟩ := h3
          rcases hall d hd with h | h <;> rcases hbad with h' | h' <;> rw [h] at h' <;> simp at h'
      · constructor
        · intro _
          exact ⟨status_eq_pending_of_not_others _ h1 h2, h4⟩
        · intro _
          exact List.mem_cons_self _ _
      · constructor
        · intro hc; exact absurd hc hnotin
        · rintro ⟨-, hall⟩; exact absurd hall h4
    · have hne : m.id ≠ n.id := by
        intro hc; exact hnodup.1 (hc ▸ List.mem_map_of_mem _ hn')
      have := ih hnodup.2 hn'
      simp only [routerGo]
      split_ifs <;> simpa [List.mem_cons, hne.symm] using this

theorem routerGo_not_reeval (st : String → NodeStatus) (l : List NodeDef)
    (hnodup : (l.map (fun n => n.id)).Nodup) (n : NodeDef) (hn : n ∈ l)
    (h : st n.id ≠ PENDING) :
    n.id ∉ (routerGo st l).1 ∧ n.id ∉ (routerGo st l).2 := by
  constructor
  · intro hc
    have := (routerGo_ready_iff st l hnodup n hn).mp hc
    exact h this.1
  · intro hc
    induction l with
    | nil => simp [routerGo] at hc
    | cons m rest ih =>
      simp only [List.map_cons, List.nodup_cons] at hnodup
      rcases List.mem_cons.mp hn with rfl | hn'
      · have hnotin : n.id ∉ (routerGo st rest).2 := fun hx =>
          hnodup.1 (routerGo_skips_sub st rest n.id hx)
        simp only [routerGo] at hc
        split_ifs at hc with h1 h2 h3 h4
        · exact hnotin hc
        · exact hnotin hc
        · exact h (status_eq_pending_of_not_others _ h1 h2)
        · exact hnotin hc
        · exact hnotin hc
      · have hne : m.id ≠ n.id := by
          intro hx; exact hnodup.1 (hx ▸ List.mem_map_of_mem _ hn')
        simp only [routerGo] at hc
        split_ifs at hc <;>
          first
            | exact ih hnodup.2 hn' hc
            | (rcases List.mem_cons.mp hc with hx | hx
               · exact hne hx.symm
               · exact ih hnodup.2 hn' hx)

/-- C1: on a router tick, a node in the workflow whose status is `PENDING` is
pushed onto the ready frontier exactly when every one of its declared
dependencies is `SUCCESS` or `CACHED`; and a node whose status is not
`PENDING` (i.e. `RUNNING` or any terminal status) is neither pushed onto the
frontier nor given a `SKIPPED` status update. -/

theorem router_ready_iff_deps_completed (wf : Workflow) (st : String → NodeStatus)
    (n : NodeDef) (hn : n ∈ wf.nodes) (hnodup : wf.ids.Nodup) :
    (n.id ∈ (router wf st).1 ↔
      st n.id = PENDING ∧ ∀ d ∈ n.deps, st d = SUCCESS ∨ st d = CACHED) ∧
    (st n.id ≠ PENDING →
      n.id ∉ (router wf st).1 ∧ n.id ∉ (router wf st).2) := by
  exact ⟨routerGo_ready_iff st wf.nodes hnodup n hn,
         fun h => routerGo_not_reeval st wf.nodes hnodup n hn h⟩

theorem router_ready_iff_deps_completed_witness :
    ("b" ∈ (router wfW stW).1 ↔
      stW "b" = PENDING ∧ ∀ d ∈ ["a"], stW d = SUCCESS ∨ stW d = CACHED) ∧
    (stW "a" ≠ PENDING → "a" ∉ (router wfW stW).1 ∧ "a" ∉ (router wfW stW).2) := by
  have h1 := router_ready_iff_deps_completed wfW stW ⟨"b", ["a"]⟩ (by decide) (by decide)
  have h2 := router_ready_iff_deps_completed wfW stW ⟨"a", []⟩ (by decide) (by decide)
  exact ⟨h1.1, h2.2⟩

theorem tickGo_completed (l : List NodeDef) :
    ∀ s ready, (tickGo s ready l).2.completed = s.completed := by
  induction l with
  | nil => intro s ready; rfl
  | cons n rest ih =>
    intro s ready
    simp only [tickGo]
    split_ifs with h1 h2 h3
    · exact ih s ready
    · exact ih _ ready
    · exact ih s _
    · exact ih s ready

theorem tickGo_failed (l : List NodeDef) :
    ∀ s ready, (tickGo s ready l).2.failed = s.failed := by
  induction l with
  | nil => intro s ready; rfl
  | cons n rest ih =>
    intro s ready
    simp only [tickGo]
    split_ifs with h1 h2 h3
    · exact ih s ready
    · exact ih _ ready
    · exact ih s _
    · exact ih s ready

theorem tickGo_skipped_append (l : List NodeDef) :
    ∀ s ready, ∃ new, (tickGo s ready l).2.skipped = s.skipped ++ new := by
  induction l with
  | nil => exact fun s ready => ⟨[], (List.append_nil _).symm⟩
  | cons n rest ih =>
    intro s ready
    simp only [tickGo]
    split_ifs with h1 h2 h3
    · exact ih s ready
    · obtain ⟨new, h⟩ := ih { s with skipped := s.skipped ++ [n.id] } ready
      exact ⟨n.id :: new, by rw [h]; simp⟩
    · exact ih s _
    · exact ih s ready

theorem tickGo_skipped_mono (l : List NodeDef) (s : LoopState) (ready : List String)
    (id : String) (h : id ∈ s.skipped) : id ∈ (tickGo s ready l).2.skipped := by
  obtain ⟨new, hn⟩ := tickGo_skipped_append l s ready
  rw [hn]
  exact List.mem_append_left _ h

theorem tickGo_skipped_src (l : List NodeDef) :
    ∀ s ready id, id ∈ (tickGo s ready l).2.skipped →
      id ∈ s.skipped ∨ ∃ n ∈ l, n.id = id := by
  induction l with
  | nil => exact fun s ready id h => Or.inl h
  | cons n rest ih =>
    intro s ready id h
    simp only [tickGo] at h
    split_ifs at h with h1 h2 h3
    · rcases ih s ready id h with h' | ⟨m, hm, hid⟩
      · exact Or.inl h'
      · exact Or.inr ⟨m, List.mem_cons_of_mem _ hm, hid⟩
    · rcases ih _ ready id h with h' | ⟨m, hm, hid⟩
      · rcases List.mem_append.mp h' with h'' | h''
        · exact Or.inl h''
        · exact Or.inr ⟨n, List.mem_cons_self _ _, (List.mem_singleton.mp h'').symm⟩
      · exact Or.inr ⟨m, List.mem_cons_of_mem _ hm, hid⟩
    · rcases ih s _ id h with h' | ⟨m, hm, hid⟩
      · exact Or.inl h'
      · exact Or.inr ⟨m, List.mem_cons_of_mem _ hm, hid⟩
    · rcases ih s ready id h with h' | ⟨m, hm, hid⟩
      · exact Or.inl h'
      · exact Or.inr ⟨m, List.mem_cons_of_mem _ hm, hid⟩

theorem tickGo_ready_mono (l : List NodeDef) :
    ∀ s ready id, id ∈ ready → id ∈ (tickGo s ready l).1 := by
  induction l with
  | nil => exact fun s ready id h => h
  | cons n rest ih =>
    intro s ready id h
    simp only [tickGo]
    split_ifs with h1 h2 h3
    · exact ih s ready id h
    · exact ih _ ready id h
    · exact ih s _ id (List.mem_append_left _ h)
    · exact ih s ready id h

theorem tickGo_ready_src (l : List NodeDef) :
    ∀ s ready id, id ∈ (tickGo s ready l).1 →
      id ∈ ready ∨ ∃ n ∈ l, n.id = id ∧ ¬ s.processed id ∧ ∀ d ∈ n.deps, d ∈ s.completed := by
  induction l with
  | nil => exact fun s ready id h => Or.inl h
  | cons n rest ih =>
    intro s ready id h
    simp only [tickGo] at h
    split_ifs at h with h1 h2 h3
    · rcases ih s ready id h with h' | ⟨m, hm, hid, hp, hd⟩
      · exact Or.inl h'
      · exact Or.inr ⟨m, List.mem_cons_of_mem _ hm, hid, hp, hd⟩
    · rcases ih _ ready id h with h' | ⟨m, hm, hid, hp, hd⟩
      · exact Or.inl h'
      · refine Or.inr ⟨m, List.mem_cons_of_mem _ hm, hid, ?_, hd⟩
        intro hc
        apply hp
        rcases hc with hc | hc | hc
        · exact Or.inl hc
        · exact Or.inr (Or.inl hc)
        · exact Or.inr (Or.inr (List.mem_append_left _ hc))
    · rcases ih s _ id h with h' | ⟨m, hm, hid, hp, hd⟩
      · rcases List.mem_append.mp h' with h'' | h''
        · exact Or.inl h''
        · obtain rfl : id = n.id := List.mem_singleton.mp h''
          exact Or.inr ⟨n, List.mem_cons_self _ _, rfl, h1, h3⟩
      · exact Or.inr ⟨m, List.mem_cons_of_mem _ hm, hid, hp, hd⟩
    · rcases ih s ready id h with h' | ⟨m, hm, hid, hp, hd⟩
      · exact Or.inl h'
      · exact Or.inr ⟨m, List.mem_cons_of_mem _ hm, hid, hp, hd⟩

theorem tickGo_skip_trigger (l : List NodeDef) :
    ∀ s ready (n : NodeDef), (l.map (fun m => m.id)).Nodup → n ∈ l →
      ¬ s.processed n.id → (∃ d ∈ n.deps, d ∈ s.failed ∨ d ∈ s.skipped) →
      n.id ∈ (tickGo s ready l).2.skipped := by
  induction l with
  | nil => intro s ready n _ hn; simp at hn
  | cons m rest ih =>
    intro s ready n hnodup hn hproc hbad
    simp only [List.map_cons, List.nodup_cons] at hnodup
    rcases List.mem_cons.mp hn with rfl | hn'
    · simp only [tickGo]
      rw [if_neg hproc, if_pos hbad]
      exact tickGo_skipped_mono rest _ ready n.id (List.mem_append_right _ (List.mem_singleton_self _))
    · have hne : m.id ≠ n.id := fun hc => hnodup.1 (hc ▸ List.mem_map_of_mem _ hn')
      simp only [tickGo]
      split_ifs with h1 h2 h3
      · exact ih s ready n hnodup.2 hn' hproc hbad
      · refine ih _ ready n hnodup.2 hn' ?_ ?_
        · intro hc
          apply hproc
          rcases hc with hc | hc | hc
          · exact Or.inl hc
          · exact Or.inr (Or.inl hc)
          · rcases List.mem_append.mp hc with hc | hc
            · exact Or.inr (Or.inr hc)
            · exact absurd (List.mem_singleton.mp hc).symm hne
        · obtain ⟨d, hd, hdb⟩ := hbad
          refine ⟨d, hd, ?_⟩
          rcases hdb with hdb | hdb
          · exact Or.inl hdb
          · exact Or.inr (List.mem_append_left _ hdb)
      · exact ih s _ n hnodup.2 hn' hproc hbad
      · exact ih s ready n hnodup.2 hn' hproc hbad

theorem tickGo_wf (l : List NodeDef) :
    ∀ s ready, s.Wf → (tickGo s ready l).2.Wf := by
  induction l with
  | nil => exact fun s ready h => h
  | cons n rest ih =>
    intro s ready hwf
    simp only [tickGo]
    split_ifs with h1 h2 h3
    · exact ih s ready hwf
    · refine ih _ ready ?_
      have hnc : n.id ∉ s.completed := fun hc => h1 (Or.inl hc)
      have hnf : n.id ∉ s.failed := fun hc => h1 (Or.inr (Or.inl hc))
      have hnk : n.id ∉ s.skipped := fun hc => h1 (Or.inr (Or.inr hc))
      refine ⟨hwf.nodupC, hwf.nodupF, ?_, hwf.disjCF, ?_, ?_⟩
      · simp only [List.nodup_append, List.nodup_cons, List.nodup_nil]
        exact ⟨hwf.nodupK, by simp, by simpa using hnk⟩
      · intro id hid
        simp only [List.mem_append, List.mem_singleton]
        rintro (hc | rfl)
        · exact hwf.disjCK id hid hc
        · exact hnc hid
      · intro id hid
        simp only [List.mem_append, List.mem_singleton]
        rintro (hc | rfl)
        · exact hwf.disjFK id hid hc
        · exact hnf hid
    · exact ih s _ hwf
    · exact ih s ready hwf

theorem tickGo_ready_good (l : List NodeDef) :
    ∀ s ready, (l.map (fun m => m.id)).Nodup → ready.Nodup →
      (∀ id ∈ ready, ¬ s.processed id ∧ id ∉ l.map (fun m => m.id)) →
      (tickGo s ready l).1.Nodup ∧
        ∀ id ∈ (tickGo s ready l).1, ¬ (tickGo s ready l).2.processed id := by
  induction l with
  | nil =>
    intro s ready _ hnr hr
    exact ⟨hnr, fun id hid => (hr id hid).1⟩
  | cons n rest ih =>
    intro s ready hnodup hnr hr
    simp only [List.map_cons, List.nodup_cons] at hnodup
    simp only [tickGo]
    split_ifs with h1 h2 h3
    · refine ih s ready hnodup.2 hnr fun id hid => ⟨(hr id hid).1, ?_⟩
      intro hc
      exact (hr id hid).2 (List.mem_cons_of_mem _ hc)
    · refine ih _ ready hnodup.2 hnr fun id hid => ⟨?_, ?_⟩
      · intro hc
        have hne : id ≠ n.id := fun he =>
          (hr id hid).2 (he ▸ List.mem_cons_self _ _)
        apply (hr id hid).1
        rcases hc with hc | hc | hc
        · exact Or.inl hc
        · exact Or.inr (Or.inl hc)
        · rcases List.mem_append.mp hc with hc | hc
          · exact Or.inr (Or.inr hc)
          · exact absurd (List.mem_singleton.mp hc) hne
      · intro hc
        exact (hr id hid).2 (List.mem_cons_of_mem _ hc)
    · refine ih s (ready ++ [n.id]) hnodup.2 ?_ ?_
      · simp only [List.nodup_append, List.nodup_cons, List.nodup_nil]
        refine ⟨hnr, by simp, ?_⟩
        intro id hid
        simp only [List.mem_singleton]
        rintro rfl
        exact (hr n.id hid).2 (List.mem_cons_self _ _)
      · intro id hid
        rcases List.mem_append.mp hid with hid' | hid'
        · refine ⟨(hr id hid').1, fun hc => (hr id hid').2 (List.mem_cons_of_mem _ hc)⟩
        · have : id = n.id := List.mem_singleton.mp hid'
          subst this
          exact ⟨h1, hnodup.1⟩
    · refine ih s ready hnodup.2 hnr fun id hid => ⟨(hr id hid).1, ?_⟩
      intro hc
      exact (hr id hid).2 (List.mem_cons_of_mem _ hc)

theorem seqDispatch_skipped (r : List String) :
    ∀ e s, (seqDispatch e s r).skipped = s.skipped := by
  induction r with
  | nil => intro e s; rfl
  | cons id rest ih =>
    intro e s
    simp only [seqDispatch]
    split_ifs <;> exact ih e _

theorem seqDispatch_completed_mono (r : List String) :
    ∀ e s id, id ∈ s.completed → id ∈ (seqDispatch e s r).completed := by
  induction r with
  | nil => exact fun e s id h => h
  | cons x rest ih =>
    intro e s id h
    simp only [seqDispatch]
    split_ifs
    · exact ih e _ id (List.mem_append_left _ h)
    · exact ih e _ id h

theorem seqDispatch_completed_src (r : List String) :
    ∀ e s id, id ∈ (seqDispatch e s r).completed → id ∈ s.completed ∨ id ∈ r := by
  induction r with
  | nil => exact fun e s id h => Or.inl h
  | cons x rest ih =>
    intro e s id h
    simp only [seqDispatch] at h
    split_ifs at h with hx
    · rcases ih e _ id h with h' | h'
      · rcases List.mem_append.mp h' with h'' | h''
        · exact Or.inl h''
        · obtain rfl := List.mem_singleton.mp h''
          exact Or.inr (List.mem_cons_self _ _)
      · exact Or.inr (List.mem_cons_of_mem _ h')
    · rcases ih e _ id h with h' | h'
      · exact Or.inl h'
      · exact Or.inr (List.mem_cons_of_mem _ h')

theorem seqDispatch_failed_src (r : List String) :
    ∀ e s id, id ∈ (seqDispatch e s r).failed → id ∈ s.failed ∨ id ∈ r := by
  induction r with
  | nil => exact fun e s id h => Or.inl h
  | cons x rest ih =>
    intro e s id h
    simp only [seqDispatch] at h
    split_ifs at h with hx
    · rcases ih e _ id h with h' | h'
      · exact Or.inl h'
      · exact Or.inr (List.mem_cons_of_mem _ h')
    · rcases ih e _ id h with h' | h'
      · rcases List.mem_append.mp h' with h'' | h''
        · exact Or.inl h''
        · obtain rfl := List.mem_singleton.mp h''
          exact Or.inr (List.mem_cons_self _ _)
      · exact Or.inr (List.mem_cons_of_mem _ h')

theorem seqDispatch_count (r : List String) :
    ∀ e s, (seqDispatch e s r).count = s.count + r.length := by
  induction r with
  | nil => intro e s; simp [seqDispatch]
  | cons x rest ih =>
    intro e s
    simp only [seqDispatch]
    split_ifs
    · rw [ih]
      simp [LoopState.count, List.length_append]
      omega
    · rw [ih]
      simp [LoopState.count, List.length_append]
      omega

theorem seqDispatch_wf (r : List String) :
    ∀ e s, s.Wf → r.Nodup → (∀ id ∈ r, ¬ s.processed id) → (seqDispatch e s r).Wf := by
  induction r with
  | nil => exact fun e s h _ _ => h
  | cons x rest ih =>
    intro e s hwf hnr hr
    have hxc : x ∉ s.completed := fun hc => hr x (List.mem_cons_self _ _) (Or.inl hc)
    have hxf : x ∉ s.failed := fun hc => hr x (List.mem_cons_self _ _) (Or.inr (Or.inl hc))
    have hxk : x ∉ s.skipped := fun hc => hr x (List.mem_cons_self _ _) (Or.inr (Or.inr hc))
    simp only [List.nodup_cons] at hnr
    simp only [seqDispatch]
    split_ifs
    · refine ih e _ ?_ hnr.2 ?_
      · refine ⟨?_, hwf.nodupF, hwf.nodupK, ?_, ?_, hwf.disjFK⟩
        · simp only [List.nodup_append, List.nodup_cons, List.nodup_nil]
          exact ⟨hwf.nodupC, by simp, by simpa using hxc⟩
        · intro id hid
          rcases List.mem_append.mp hid with h' | h'
          · exact hwf.disjCF id h'
          · obtain rfl := List.mem_singleton.mp h'
            exact hxf
        · intro id hid
          rcases List.mem_append.mp hid with h' | h'
          · exact hwf.disjCK id h'
          · obtain rfl := List.mem_singleton.mp h'
            exact hxk
      · intro id hid hc
        have hne : id ≠ x := fun he => hnr.1 (he ▸ hid)
        apply hr id (List.mem_cons_of_mem _ hid)
        rcases hc with hc | hc | hc
        · rcases List.mem_append.mp hc with h' | h'
          · exact Or.inl h'
          · exact absurd (List.mem_singleton.mp h') hne
        · exact Or.inr (Or.inl hc)
        · exact Or.inr (Or.inr hc)
    · refine ih e _ ?_ hnr.2 ?_
      · refine ⟨hwf.nodupC, ?_, hwf.nodupK, ?_, hwf.disjCK, ?_⟩
        · simp only [List.nodup_append, List.nodup_cons, List.nodup_nil]
          exact ⟨hwf.nodupF, by simp, by simpa using hxf⟩
        · intro id hid
          simp only [List.mem_append, List.mem_singleton]
          rintro (hc | rfl)
          · exact hwf.disjCF id hid hc
          · exact hxc hid
        · intro id hid
          rcases List.mem_append.mp hid with h' | h'
          · exact hwf.disjFK id h'
          · obtain rfl := List.mem_singleton.mp h'
            exact hxk
      · intro id hid hc
        have hne : id ≠ x := fun he => hnr.1 (he ▸ hid)
        apply hr id (List.mem_cons_of_mem _ hid)
        rcases hc with hc | hc | hc
        · exact Or.inl hc
        · rcases List.mem_append.mp hc with h' | h'
          · exact Or.inr (Or.inl h')
          · exact absurd (List.mem_singleton.mp h') hne
        · exact Or.inr (Or.inr hc)

theorem schedInv_init (wf : Workflow) : SchedInv wf ⟨[], [], []⟩ := by
  refine ⟨⟨List.nodup_nil, List.nodup_nil, List.nodup_nil, ?_, ?_, ?_⟩, ?_, ?_⟩ <;>
    simp [LoopState.processed]

theorem node_id_unique (wf : Workflow) (hnodup : wf.ids.Nodup) {n m : NodeDef}
    (hn : n ∈ wf.nodes) (hm : m ∈ wf.nodes) (h : n.id = m.id) : n = m :=
  List.inj_on_of_nodup_map hnodup hn hm h

theorem seqTick_completed (wf : Workflow) (s : LoopState) :
    (seqTick wf s).2.completed = s.completed :=
  tickGo_completed wf.nodes s []

theorem seqTick_failed (wf : Workflow) (s : LoopState) :
    (seqTick wf s).2.failed = s.failed :=
  tickGo_failed wf.nodes s []

theorem seqTick_inv (wf : Workflow) (s : LoopState) (hinv : SchedInv wf s) :
    SchedInv wf (seqTick wf s).2 := by
  refine ⟨tickGo_wf wf.nodes s [] hinv.wfState, ?_, ?_⟩
  · intro id hid
    rcases hid with hc | hc | hc
    · rw [seqTick_completed] at hc
      exact hinv.subIds id (Or.inl hc)
    · rw [seqTick_failed] at hc
      exact hinv.subIds id (Or.inr (Or.inl hc))
    · rcases tickGo_skipped_src wf.nodes s [] id hc with h' | ⟨m, hm, rfl⟩
      · exact hinv.subIds id (Or.inr (Or.inr h'))
      · exact List.mem_map_of_mem _ hm
  · intro n hn hmem d hd
    rw [seqTick_completed] at hmem ⊢
    rw [seqTick_failed] at hmem
    exact hinv.depsDone n hn hmem d hd

theorem seqTick_ready_good (wf : Workflow) (s : LoopState) (hnodup : wf.ids.Nodup) :
    (seqTick wf s).1.Nodup ∧ ∀ id ∈ (seqTick wf s).1, ¬ (seqTick wf s).2.processed id :=
  tickGo_ready_good wf.nodes s [] hnodup List.nodup_nil (by simp)

theorem seqTick_ready_deps (wf : Workflow) (s : LoopState) (id : String)
    (h : id ∈ (seqTick wf s).1) :
    ∃ n ∈ wf.nodes, n.id = id ∧ ∀ d ∈ n.deps, d ∈ (seqTick wf s).2.completed := by
  rcases tickGo_ready_src wf.nodes s [] id h with h' | ⟨n, hn, hid, _, hd⟩
  · simp at h'
  · refine ⟨n, hn, hid, ?_⟩
    rw [seqTick_completed]
    exact hd

theorem seqDispatch_inv (wf : Workflow) (hnodup : wf.ids.Nodup) (r : List String) :
    ∀ e s, SchedInv wf s → r.Nodup → (∀ id ∈ r, ¬ s.processed id) →
      (∀ id ∈ r, ∃ n ∈ wf.nodes, n.id = id ∧ ∀ d ∈ n.deps, d ∈ s.completed) →
      SchedInv wf (seqDispatch e s r) := by
  induction r with
  | nil => exact fun e s h _ _ _ => h
  | cons x rest ih =>
    intro e s hinv hnr hr hdeps
    simp only [List.nodup_cons] at hnr
    have hrest : ∀ id ∈ rest, ¬ s.processed id :=
      fun id hid => hr id (List.mem_cons_of_mem _ hid)
    obtain ⟨nx, hnx, hnxid, hnxdeps⟩ := hdeps x (List.mem_cons_self _ _)
    have hxnp := hr x (List.mem_cons_self _ _)
    simp only [seqDispatch]
    split_ifs
    · refine ih e _ ⟨?_, ?_, ?_⟩ hnr.2 ?_ ?_
      · refine ⟨?_, hinv.wfState.nodupF, hinv.wfState.nodupK, ?_, ?_, hinv.wfState.disjFK⟩
        · simp only [List.nodup_append, List.nodup_cons, List.nodup_nil]
          exact ⟨hinv.wfState.nodupC, by simp,
            by simpa using fun hc => hxnp (Or.inl hc)⟩
        · intro id hid
          rcases List.mem_append.mp hid with h' | h'
          · exact hinv.wfState.disjCF id h'
          · obtain rfl := List.mem_singleton.mp h'
            exact fun hc => hxnp (Or.inr (Or.inl hc))
        · intro id hid
          rcases List.mem_append.mp hid with h' | h'
          · exact hinv.wfState.disjCK id h'
          · obtain rfl := List.mem_singleton.mp h'
            exact fun hc => hxnp (Or.inr (Or.inr hc))
      · intro id hid
        rcases hid with hc | hc | hc
        · rcases List.mem_append.mp hc with h' | h'
          · exact hinv.subIds id (Or.inl h')
          · obtain rfl := List.mem_singleton.mp h'
            exact hnxid ▸ List.mem_map_of_mem _ hnx
        · exact hinv.subIds id (Or.inr (Or.inl hc))
        · exact hinv.subIds id (Or.inr (Or.inr hc))
      · intro n hn hmem d hd
        rcases hmem with hc | hc
        · rcases List.mem_append.mp hc with h' | h'
          · exact List.mem_append_left _ (hinv.depsDone n hn (Or.inl h') d hd)
          · have : n = nx := node_id_unique wf hnodup hn hnx ((List.mem_singleton.mp h').trans hnxid.symm)
            subst this
            exact List.mem_append_left _ (hnxdeps d hd)
        · exact List.mem_append_left _ (hinv.depsDone n hn (Or.inr hc) d hd)
      · intro id hid hc
        have hne : id ≠ x := fun he => hnr.1 (he ▸ hid)
        apply hrest id hid
        rcases hc with hc | hc | hc
        · rcases List.mem_append.mp hc with h' | h'
          · exact Or.inl h'
          · exact absurd (List.mem_singleton.mp h') hne
        · exact Or.inr (Or.inl hc)
        · exact Or.inr (Or.inr hc)
      · intro id hid
        obtain ⟨m, hm, hmid, hmdeps⟩ := hdeps id (List.mem_cons_of_mem _ hid)
        exact ⟨m, hm, hmid, fun d hd => List.mem_append_left _ (hmdeps d hd)⟩
    · refine ih e _ ⟨?_, ?_, ?_⟩ hnr.2 ?_ ?_
      · refine ⟨hinv.wfState.nodupC, ?_, hinv.wfState.nodupK, ?_, hinv.wfState.disjCK, ?_⟩
        · simp only [List.nodup_append, List.nodup_cons, List.nodup_nil]
          exact ⟨hinv.wfState.nodupF, by simp,
            by simpa using fun hc => hxnp (Or.inr (Or.inl hc))⟩
        · intro id hid
          simp only [List.mem_append, List.mem_singleton]
          rintro (hc | rfl)
          · exact hinv.wfState.disjCF id hid hc
          · exact hxnp (Or.inl hid)
        · intro id hid
          rcases List.mem_append.mp hid with h' | h'
          · exact hinv.wfState.disjFK id h'
          · obtain rfl := List.mem_singleton.mp h'
            exact fun hc => hxnp (Or.inr (Or.inr hc))
      · intro id hid
        rcases hid with hc | hc | hc
        · exact hinv.subIds id (Or.inl hc)
        · rcases List.mem_append.mp hc with h' | h'
          · exact hinv.subIds id (Or.inr (Or.inl h'))
          · obtain rfl := List.mem_singleton.mp h'
            exact hnxid ▸ List.mem_map_of_mem _ hnx
        · exact hinv.subIds id (Or.inr (Or.inr hc))
      · intro n hn hmem d hd
        rcases hmem with hc | hc
        · exact hinv.depsDone n hn (Or.inl hc) d hd
        · rcases List.mem_append.mp hc with h' | h'
          · exact hinv.depsDone n hn (Or.inr h') d hd
          · have : n = nx := node_id_unique wf hnodup hn hnx ((List.mem_singleton.mp h').trans hnxid.symm)
            subst this
            exact hnxdeps d hd
      · intro id hid hc
        have hne : id ≠ x := fun he => hnr.1 (he ▸ hid)
        apply hrest id hid
        rcases hc with hc | hc | hc
        · exact Or.inl hc
        · rcases List.mem_append.mp hc with h' | h'
          · exact Or.inr (Or.inl h')
          · exact absurd (List.mem_singleton.mp h') hne
        · exact Or.inr (Or.inr hc)
      · intro id hid
        obtain ⟨m, hm, hmid, hmdeps⟩ := hdeps id (List.mem_cons_of_mem _ hid)
        exact ⟨m, hm, hmid, hmdeps⟩

theorem all_processed_of_count_ge (wf : Workflow) (s : LoopState)
    (hinv : SchedInv wf s)
    (hc : wf.nodes.length ≤ s.count) : ∀ n ∈ wf.nodes, s.processed n.id := by
  have hall : (s.completed ++ s.failed ++ s.skipped).Nodup := by
    rw [List.nodup_append, List.nodup_append]
    refine ⟨⟨hinv.wfState.nodupC, hinv.wfState.nodupF, ?_⟩, hinv.wfState.nodupK, ?_⟩
    · exact fun a ha => hinv.wfState.disjCF a ha
    · intro a ha
      rcases List.mem_append.mp ha with h' | h'
      · exact hinv.wfState.disjCK a h'
      · exact hinv.wfState.disjFK a h'
  have hsub : ∀ id ∈ s.completed ++ s.failed ++ s.skipped, id ∈ wf.ids := by
    intro id hid
    rcases List.mem_append.mp hid with h' | h'
    · rcases List.mem_append.mp h' with h'' | h''
      · exact hinv.subIds id (Or.inl h'')
      · exact hinv.subIds id (Or.inr (Or.inl h''))
    · exact hinv.subIds id (Or.inr (Or.inr h'))
  have hlen : (s.completed ++ s.failed ++ s.skipped).length = s.count := by
    simp only [List.length_append, LoopState.count]
  have hsubF : (s.completed ++ s.failed ++ s.skipped).toFinset ⊆ wf.ids.toFinset := by
    intro a ha
    rw [List.mem_toFinset] at ha ⊢
    exact hsub a ha
  have hcardA : (s.completed ++ s.failed ++ s.skipped).toFinset.card = s.count := by
    rw [List.toFinset_card_of_nodup hall, hlen]
  have hcardB : wf.ids.toFinset.card ≤ wf.nodes.length := by
    calc wf.ids.toFinset.card ≤ wf.ids.length := wf.ids.toFinset_card_le
      _ = wf.nodes.length := by simp [Workflow.ids]
  have heq : (s.completed ++ s.failed ++ s.skipped).toFinset = wf.ids.toFinset := by
    refine Finset.eq_of_subset_of_card_le hsubF ?_
    omega
  intro n hn
  have : n.id ∈ wf.ids.toFinset := List.mem_toFinset.mpr (List.mem_map_of_mem _ hn)
  rw [← heq, List.mem_toFinset] at this
  rcases List.mem_append.mp this with h' | h'
  · rcases List.mem_append.mp h' with h'' | h''
    · exact Or.inl h''
    · exact Or.inr (Or.inl h'')
  · exact Or.inr (Or.inr h')

theorem seqTick_count_ge (wf : Workflow) (s : LoopState) :
    s.count ≤ (seqTick wf s).2.count := by
  obtain ⟨new, h⟩ := tickGo_skipped_append wf.nodes s []
  have hc := seqTick_completed wf s
  have hf := seqTick_failed wf s
  simp only [LoopState.count, hc, hf]
  have : (seqTick wf s).2.skipped = s.skipped ++ new := h
  rw [this, List.length_append]
  omega

theorem seqRunLoop_finished (wf : Workflow) (hnodup : wf.ids.Nodup) (e : String → Bool) :
    ∀ fuel s t, SchedInv wf s → seqRunLoop wf e fuel s = .finished t →
      SchedInv wf t ∧ ∀ n ∈ wf.nodes, t.processed n.id := by
  intro fuel
  induction fuel with
  | zero =>
    intro s t _ h
    simp [seqRunLoop] at h
  | succ fuel ih =>
    intro s t hinv h
    simp only [seqRunLoop] at h
    split_ifs at h with h1 h2 h3
    · injection h with h
      subst h
      refine ⟨seqTick_inv wf s hinv, ?_⟩
      have hf := List.filter_eq_nil_iff.mp (List.isEmpty_iff.mp h3)
      intro n hn
      have := hf n hn
      simpa using this
    · have hready := seqTick_ready_good wf s hnodup
      have hdeps : ∀ id ∈ (seqTick wf s).1,
          ∃ n ∈ wf.nodes, n.id = id ∧ ∀ d ∈ n.deps, d ∈ (seqTick wf s).2.completed :=
        fun id hid => seqTick_ready_deps wf s id hid
      exact ih _ t
        (seqDispatch_inv wf hnodup _ e _ (seqTick_inv wf s hinv) hready.1 hready.2 hdeps) h
    · injection h with h
      subst h
      exact ⟨hinv, all_processed_of_count_ge wf s hinv (Nat.le_of_not_lt h1)⟩

theorem seqRunLoop_not_outOfFuel (wf : Workflow) (hnodup : wf.ids.Nodup) (e : String → Bool) :
    ∀ fuel s, SchedInv wf s → wf.nodes.length - s.count < fuel →
      seqRunLoop wf e fuel s ≠ .outOfFuel := by
  intro fuel
  induction fuel with
  | zero =>
    intro s _ hb
    exact absurd hb (Nat.not_lt_zero _)
  | succ fuel ih =>
    intro s hinv hb
    simp only [seqRunLoop]
    split_ifs with h1 h2 h3
    · simp
    · simp
    · have hready := seqTick_ready_good wf s hnodup
      have hdeps : ∀ id ∈ (seqTick wf s).1,
          ∃ n ∈ wf.nodes, n.id = id ∧ ∀ d ∈ n.deps, d ∈ (seqTick wf s).2.completed :=
        fun id hid => seqTick_ready_deps wf s id hid
      apply ih
      · exact seqDispatch_inv wf hnodup _ e _ (seqTick_inv wf s hinv) hready.1 hready.2 hdeps
      · have hc1 := seqTick_count_ge wf s
        have hc2 := seqDispatch_count (seqTick wf s).1 e (seqTick wf s).2
        have hn0 : (seqTick wf s).1.length ≠ 0 := by
          intro hz
          exact h2 (by simp [List.length_eq_zero.mp hz])
        omega
    · simp

theorem seqRun_not_outOfFuel (wf : Workflow) (e : String → Bool) (hnodup : wf.ids.Nodup) :
    seqRun wf e ≠ .outOfFuel := by
  apply seqRunLoop_not_outOfFuel wf hnodup e (wf.nodes.length + 1) ⟨[], [], []⟩ (schedInv_init wf)
  simp [LoopState.count]

theorem dependent_not_executed (wf : Workflow) (s : LoopState) (hinv : SchedInv wf s)
    (a b : String) (ha : a ∈ s.failed) (hdep : DependentOn wf a b) :
    (b ∉ s.completed ∧ b ∉ s.failed) ∧ ∃ n ∈ wf.nodes, n.id = b := by
  induction hdep with
  | direct hn hadeps =>
    rename_i n
    have hkey : ¬(n.id ∈ s.completed ∨ n.id ∈ s.failed) := by
      intro hmem
      have hac : a ∈ s.completed := hinv.depsDone n hn hmem a hadeps
      exact hinv.wfState.disjCF a hac ha
    exact ⟨⟨fun h => hkey (Or.inl h), fun h => hkey (Or.inr h)⟩, n, hn, rfl⟩
  | step hd hn hb ih =>
    rename_i b n
    have hkey : ¬(n.id ∈ s.completed ∨ n.id ∈ s.failed) := by
      intro hmem
      have hbc : b ∈ s.completed := hinv.depsDone n hn hmem b hb
      exact ih.1.1 hbc
    exact ⟨⟨fun h => hkey (Or.inl h), fun h => hkey (Or.inr h)⟩, n, hn, rfl⟩

/-- C3: when a tick's computed ready frontier is empty while at least one node
is still unprocessed (`PENDING`; the sequential loop never observes `RUNNING`
at the top of a tick because `executeNode` always leaves a terminal status),
the loop returns immediately — whatever fuel remains — with a deadlock
failure whose id list and message enumerate exactly the still-pending node
ids; in particular it does not loop forever. -/

theorem deadlock_on_empty_frontier (wf : Workflow) (e : String → Bool) (fuel : Nat)
    (s : LoopState) (hcount : s.count < wf.nodes.length)
    (hready : (seqTick wf s).1 = [])
    (hpending : wf.nodes.filter (fun n => decide (¬ (seqTick wf s).2.processed n.id)) ≠ []) :
    seqRunLoop wf e (fuel + 1) s =
      .deadlock
        (deadlockMsg ((wf.nodes.filter
          (fun n => decide (¬ (seqTick wf s).2.processed n.id))).map (fun n => n.id)))
        ((wf.nodes.filter
          (fun n => decide (¬ (seqTick wf s).2.processed n.id))).map (fun n => n.id)) := by
  have hne : (wf.nodes.filter
      (fun n => decide (¬ (seqTick wf s).2.processed n.id))).isEmpty = false := by
    simpa [List.isEmpty_iff] using hpending
  simp only [seqRunLoop, if_pos hcount, hready, List.isEmpty_nil, if_true, hne,
    Bool.false_eq_true, if_false]

theorem deadlock_on_empty_frontier_witness :
    seqRunLoop wfCyc execAll 1 ⟨[], [], []⟩ =
      .deadlock (deadlockMsg ["a", "b"]) ["a", "b"] := by
  have h := deadlock_on_empty_frontier wfCyc execAll 0 ⟨[], [], []⟩
    (by decide) (by decide) (by decide)
  exact h.trans (by decide)

/-- C4: in a finished sequential run, if node `a` ended `FAILED` then every
transitive dependent `b` of `a` ended `SKIPPED`, and in particular never
`SUCCESS`/`CACHED` (the completed set) and never `FAILED`; and the marking
propagates tick by tick: a still-pending node is marked `SKIPPED` on the very
next tick as soon as any one of its dependencies is failed or skipped. -/

theorem failed_dependents_skipped (wf : Workflow) (e : String → Bool)
    (hnodup : wf.ids.Nodup) (t : LoopState) (hrun : seqRun wf e = .finished t)
    (a b : String) (ha : a ∈ t.failed) (hdep : DependentOn wf a b) :
    (b ∈ t.skipped ∧ b ∉ t.completed ∧ b ∉ t.failed) ∧
    (∀ s : LoopState, ∀ n ∈ wf.nodes, ¬ s.processed n.id →
      (∃ d ∈ n.deps, d ∈ s.failed ∨ d ∈ s.skipped) →
      n.id ∈ (seqTick wf s).2.skipped) := by
  have hfin := seqRunLoop_finished wf hnodup e (wf.nodes.length + 1) ⟨[], [], []⟩ t
    (schedInv_init wf) hrun
  obtain ⟨⟨hnc, hnf⟩, n, hn, hb⟩ := dependent_not_executed wf t hfin.1 a b ha hdep
  subst hb
  refine ⟨⟨?_, hnc, hnf⟩, ?_⟩
  · rcases hfin.2 n hn with h | h | h
    · exact absurd h hnc
    · exact absurd h hnf
    · exact h
  · intro s m hm hs hbad
    exact tickGo_skip_trigger wf.nodes s [] m hnodup hm hs hbad

theorem failed_dependents_skipped_witness :
    ("c" ∈ (⟨[], ["a"], ["b", "c"]⟩ : LoopState).skipped ∧
      "c" ∉ (⟨[], ["a"], ["b", "c"]⟩ : LoopState).completed ∧
      "c" ∉ (⟨[], ["a"], ["b", "c"]⟩ : LoopState).failed) ∧
    (∀ s : LoopState, ∀ n ∈ wfLin.nodes, ¬ s.processed n.id →
      (∃ d ∈ n.deps, d ∈ s.failed ∨ d ∈ s.skipped) →
      n.id ∈ (seqTick wfLin s).2.skipped) :=
  failed_dependents_skipped wfLin execFailA (by decide) ⟨[], ["a"], ["b", "c"]⟩
    (by decide) "a" "c" (by decide)
    (@DependentOn.step wfLin "a" "b" ⟨"c", ["b"]⟩
      (@DependentOn.direct wfLin "a" ⟨"b", ["a"]⟩ (by decide) (by decide))
      (by decide) (by decide))

/-- C2: on resume from a checkpoint, every node whose checkpointed status is
`FAILED` or `SKIPPED` restarts as `PENDING`; a node whose status is `SUCCESS`
or `CACHED` keeps its checkpointed status; the single failure record is
cleared; and a kept `SUCCESS`/`CACHED` node is never re-executed: the router
never places it on the ready frontier (nor updates its status) in the resumed
run. -/

theorem resume_resets_failed_skipped (cp : CheckpointValues) (id : String) :
    ((cp.statuses id = FAILED ∨ cp.statuses id = SKIPPED) →
      (resumeInitialState cp).statuses id = PENDING) ∧
    ((cp.statuses id = SUCCESS ∨ cp.statuses id = CACHED) →
      (resumeInitialState cp).statuses id = cp.statuses id) ∧
    (resumeInitialState cp).failed = none ∧
    (∀ wf : Workflow, ∀ n ∈ wf.nodes, n.id = id → wf.ids.Nodup →
      (cp.statuses id = SUCCESS ∨ cp.statuses id = CACHED) →
      id ∉ (router wf (resumeInitialState cp).statuses).1 ∧
      id ∉ (router wf (resumeInitialState cp).statuses).2) := by
  have hkeep : (cp.statuses id = SUCCESS ∨ cp.statuses id = CACHED) →
      (resumeInitialState cp).statuses id = cp.statuses id := by
    intro h
    simp only [resumeInitialState]
    rw [if_neg]
    rcases h with h | h <;> rw [h] <;> simp
  refine ⟨?_, hkeep, rfl, ?_⟩
  · intro h
    simp only [resumeInitialState]
    rw [if_pos h]
  · intro wf n hn hid hnodup hstat
    subst hid
    apply routerGo_not_reeval _ wf.nodes hnodup n hn
    rw [hkeep hstat]
    rcases hstat with h | h <;> rw [h] <;> simp

theorem resume_resets_failed_skipped_witness :
    (resumeInitialState cp0).statuses "b" = PENDING ∧
    (resumeInitialState cp0).statuses "c" = PENDING ∧
    (resumeInitialState cp0).statuses "a" = SUCCESS ∧
    (resumeInitialState cp0).failed = none ∧
    ("a" ∉ (router wfW (resumeInitialState cp0).statuses).1 ∧
      "a" ∉ (router wfW (resumeInitialState cp0).statuses).2) := by
  refine ⟨?_, ?_, ?_, ?_, ?_⟩
  · exact (resume_resets_failed_skipped cp0 "b").1 (by decide)
  · exact (resume_resets_failed_skipped cp0 "c").1 (by decide)
  · exact ((resume_resets_failed_skipped cp0 "a").2.1 (by decide)).trans (by decide)
  · exact (resume_resets_failed_skipped cp0 "a").2.2.1
  · exact (resume_resets_failed_skipped cp0 "a").2.2.2 wfW ⟨"a", []⟩ (by decide) rfl
      (by decide) (by decide)

/-- C9: the resume/thread identifier is generated exactly once, when the run
store is first created without a supplied id; loading the same run directory
for resume returns the stored thread id unchanged, independently of what the
generator would produce — a resume attempt never generates a new id. -/

theorem thread_id_generated_once (gen gen' now now' runDir workflowName : String)
    (stored : RunMetadata) :
    (RunStore.create gen now runDir workflowName none).getThreadId = gen ∧
    (RunStore.loadForResume gen now runDir stored).getThreadId = stored.threadId ∧
    (RunStore.loadForResume gen now runDir stored).getThreadId =
      (RunStore.loadForResume gen' now' runDir stored).getThreadId :=
  ⟨rfl, rfl, rfl⟩

/-!
## Executor theorems
-/

/-- Characterization of `runExecClosed`: it either throws (non-zero exit,
missing artifact or JSON read/parse failure) without touching the cache, or
returns a fresh output carrying `hash: key` and `cached: false`, written back
to the cache exactly when the node has not opted out of determinism. -/

theorem runExecClosed_spec (w : ExecWorld) (spec : ExecNode) (key : String) :
    (∃ e, runExecClosed w spec key =
      ⟨.error e, true, false, [], []⟩) ∨
    (∃ out, runExecClosed w spec key =
        ⟨.ok out, true, false, [],
          if spec.deterministic ≠ some false then [(key, out)] else []⟩ ∧
      out.hash = some key ∧ out.cached = some false) := by
  unfold runExecClosed
  split
  · exact Or.inl ⟨_, rfl⟩
  · split
    · exact Or.inl ⟨_, rfl⟩
    · split
      · split
        · exact Or.inl ⟨_, rfl⟩
        · exact Or.inr ⟨_, rfl, rfl, rfl⟩
      · exact Or.inr ⟨_, rfl, rfl, rfl⟩

/-- When the armed timeout elapses before the process closes, the child is
killed and the call rejects with the timeout error. -/

theorem runExecFresh_timeout (w : ExecWorld) (spec : ExecNode) (key : String) (t : Nat)
    (ht : spec.timeout = some t) (h1 : 0 < t) (h2 : t < w.proc.closeTimeMs) :
    runExecFresh w spec key =
      ⟨.error ("exec timeout after " ++ toString t ++ "ms"), true, true, [], []⟩ := by
  unfold runExecFresh
  rw [ht]
  exact if_pos ⟨h1, h2⟩

/-- When no timeout fires, the fresh path is the post-close path. -/

theorem runExecFresh_no_timeout (w : ExecWorld) (spec : ExecNode) (key : String)
    (h : ∀ t, spec.timeout = some t → ¬(0 < t ∧ t < w.proc.closeTimeMs)) :
    runExecFresh w spec key = runExecClosed w spec key := by
  unfold runExecFresh
  split
  · rename_i t heq
    exact if_neg (h t heq)
  · rfl

/-- Characterization of `runExecFresh`: either the timeout record, or the
post-close outcome. -/

theorem runExecFresh_spec (w : ExecWorld) (spec : ExecNode) (key : String) :
    (∃ msg, runExecFresh w spec key = ⟨.error msg, true, true, [], []⟩) ∨
    runExecFresh w spec key = runExecClosed w spec key := by
  unfold runExecFresh
  split
  · split_ifs
    · exact Or.inl ⟨_, rfl⟩
    · exact Or.inr rfl
  · exact Or.inr rfl

theorem runExecFresh_cacheReads (w : ExecWorld) (spec : ExecNode) (key : String) :
    (runExecFresh w spec key).cacheReads = [] := by
  rcases runExecFresh_spec w spec key with ⟨msg, hT⟩ | hT
  · rw [hT]
  · rw [hT]
    rcases runExecClosed_spec w spec key with ⟨e, hC⟩ | ⟨o, hC, -, -⟩ <;> rw [hC]

theorem runExecFresh_res_ok (w : ExecWorld) (spec : ExecNode) (key : String)
    (out : NodeOutput) (h : (runExecFresh w spec key).res = .ok out) :
    out.hash = some key ∧ out.cached = some false := by
  rcases runExecFresh_spec w spec key with ⟨msg, hT⟩ | hT
  · rw [hT] at h
    simp at h
  · rw [hT] at h
    rcases runExecClosed_spec w spec key with ⟨e, hC⟩ | ⟨o, hC, h1, h2⟩ <;> rw [hC] at h
    · simp at h
    · simp only [Except.ok.injEq] at h
      exact h ▸ ⟨h1, h2⟩

theorem runExecFresh_writes_nd (w : ExecWorld) (spec : ExecNode) (key : String)
    (hdet : spec.deterministic = some false) :
    (runExecFresh w spec key).cacheWrites = [] := by
  rcases runExecFresh_spec w spec key with ⟨msg, hT⟩ | hT
  · rw [hT]
  · rw [hT]
    rcases runExecClosed_spec w spec key with ⟨e, hC⟩ | ⟨o, hC, -, -⟩ <;> rw [hC]
    simp [hdet]

theorem runExecFresh_writes_det (w : ExecWorld) (spec : ExecNode) (key : String)
    (out : NodeOutput) (hdet : spec.deterministic ≠ some false)
    (h : (runExecFresh w spec key).res = .ok out) :
    (runExecFresh w spec key).cacheWrites = [(key, out)] := by
  rcases runExecFresh_spec w spec key with ⟨msg, hT⟩ | hT
  · rw [hT] at h
    simp at h
  · rw [hT] at h ⊢
    rcases runExecClosed_spec w spec key with ⟨e, hC⟩ | ⟨o, hC, h1, h2⟩ <;> rw [hC] at h ⊢
    · simp at h
    · simp only [Except.ok.injEq] at h
      subst h
      simp [hdet]

theorem runExec_miss (w : ExecWorld) (spec : ExecNode)
    (hmiss : spec.deterministic = some false ∨ w.cache (execKey w spec) = none) :
    (runExec w spec).res = (runExecFresh w spec (execKey w spec)).res ∧
    (runExec w spec).killed = (runExecFresh w spec (execKey w spec)).killed ∧
    (runExec w spec).spawned = (runExecFresh w spec (execKey w spec)).spawned ∧
    (runExec w spec).cacheWrites = (runExecFresh w spec (execKey w spec)).cacheWrites := by
  unfold runExec
  rcases hmiss with h | h
  · rw [if_neg (fun hc => hc h)]
    exact ⟨rfl, rfl, rfl, rfl⟩
  · split_ifs with hdet
    · rw [h]
      exact ⟨rfl, rfl, rfl, rfl⟩
    · exact ⟨rfl, rfl, rfl, rfl⟩

theorem runTaskFresh_cacheReads (w : TaskWorld) (spec : TaskNode) (key : String) :
    (runTaskFresh w spec key).cacheReads = [] := by
  unfold runTaskFresh
  split <;> rfl

theorem runTaskFresh_writes_nd (w : TaskWorld) (spec : TaskNode) (key : String)
    (hdet : spec.deterministic ≠ some true) :
    (runTaskFresh w spec key).cacheWrites = [] := by
  unfold runTaskFresh
  split
  · rfl
  · simp [hdet]

/-- A map-node output never carries a cache key, whatever happened inside. -/

theorem runMap_ok_no_hash {α : Type} (items : List α)
    (body : Nat → α → Except String ResultVal) (dur : Nat → Nat) (fuel : Nat)
    (out : NodeOutput) (h : runMap items body dur fuel = some (.ok out)) :
    out.hash = none := by
  unfold runMap at h
  split at h
  · simp at h
  · split at h
    · simp at h
    · split at h
      · simp at h
      · simp only [Option.some.injEq, Except.ok.injEq] at h
        subst h
        rfl

/-- C5 (amended): on a cache hit for a node that has not opted out of
determinism, the underlying command (resp. agent capability) is never
invoked, the node's final status is `CACHED`, and the returned output agrees
with the stored cache entry on `result`, `artifacts` and `logs` — but not
byte-for-byte: the `cached` flag is overwritten with `true` and the `hash`
field with the lookup key (see `cache_hit_output_differs_counterexample`). -/

theorem cache_hit_skips_execution (w : ExecWorld) (spec : ExecNode) (hit : NodeOutput)
    (hdet : spec.deterministic ≠ some false)
    (hhit : w.cache (execKey w spec) = some hit) :
    ((runExec w spec).spawned = false ∧
      (runExec w spec).res =
        .ok { hit with hash := some (execKey w spec), cached := some true } ∧
      statusOfOutput { hit with hash := some (execKey w spec), cached := some true } =
        CACHED ∧
      ({ hit with hash := some (execKey w spec), cached := some true } : NodeOutput).result =
        hit.result ∧
      ({ hit with hash := some (execKey w spec), cached := some true } : NodeOutput).artifacts =
        hit.artifacts ∧
      ({ hit with hash := some (execKey w spec), cached := some true } : NodeOutput).logs =
        hit.logs ∧
      (runExec w spec).cacheWrites = []) ∧
    (∀ (tw : TaskWorld) (tspec : TaskNode) (thit : NodeOutput),
      tspec.deterministic = some true → tw.cache (taskKey tw tspec) = some thit →
      (runTask tw tspec).agentInvoked = false ∧
      (runTask tw tspec).res =
        .ok { thit with hash := some (taskKey tw tspec), cached := some true } ∧
      statusOfOutput { thit with hash := some (taskKey tw tspec), cached := some true } =
        CACHED) := by
  constructor
  · unfold runExec
    rw [if_pos hdet, hhit]
    exact ⟨rfl, rfl, rfl, rfl, rfl, rfl, rfl⟩
  · intro tw tspec thit htdet hthit
    unfold runTask
    rw [if_pos htdet, hthit]
    exact ⟨rfl, rfl, rfl⟩

/-- Counterexample to C5 as stated: on this cache hit the process is not
spawned, but the returned output is not byte-for-byte the stored entry — its
`cached` flag is `true` while the stored one is `false`. -/

theorem cache_hit_output_differs_counterexample :
    (runExec hitWorld hitSpec).spawned = false ∧
    (runExec hitWorld hitSpec).res =
      .ok { storedOutput with hash := some "k", cached := some true } ∧
    (runExec hitWorld hitSpec).res ≠ .ok storedOutput := by
  refine ⟨rfl, rfl, ?_⟩
  intro h
  have hres : (runExec hitWorld hitSpec).res =
      .ok { storedOutput with hash := some "k", cached := some true } := rfl
  rw [hres] at h
  have h1 := Except.ok.inj h
  have h2 := congrArg NodeOutput.cached h1
  simp [storedOutput] at h2

/-- Counterexample to C7 as stated: this node is explicitly non-deterministic,
yet its completed output still carries the cache key in `hash`. -/

theorem nondet_output_carries_hash_counterexample :
    ndSpec.deterministic = some false ∧
    (runExec hitWorld ndSpec).res = .ok freshNdOutput ∧
    freshNdOutput.hash ≠ none :=
  ⟨rfl, rfl, fun h => Option.noConfusion h⟩

/-- C7 (amended): a completed exec or task node's output always carries the
cache key in its `hash` field, whether or not the node is deterministic,
while a completed map node's output never carries one — the presence of the
hash tracks the executor kind, not the determinism flag. -/

theorem output_hash_presence (w : ExecWorld) (spec : ExecNode)
    (tw : TaskWorld) (tspec : TaskNode) :
    (∀ out, (runExec w spec).res = .ok out → out.hash = some (execKey w spec)) ∧
    (∀ out, (runTask tw tspec).res = .ok out → out.hash = some (taskKey tw tspec)) ∧
    (∀ (α : Type) (items : List α) (body : Nat → α → Except String ResultVal)
        (dur : Nat → Nat) (fuel : Nat) (out : NodeOutput),
      runMap items body dur fuel = some (.ok out) → out.hash = none) := by
  refine ⟨?_, ?_, ?_⟩
  · intro out h
    unfold runExec at h
    split_ifs at h with hdet
    · revert h
      split
      · intro h
        simp only [Except.ok.injEq] at h
        subst h
        rfl
      · intro h
        exact (runExecFresh_res_ok w spec (execKey w spec) out h).1
    · exact (runExecFresh_res_ok w spec (execKey w spec) out h).1
  · intro out h
    unfold runTask at h
    split_ifs at h with hdet
    · revert h
      split
      · intro h
        simp only [Except.ok.injEq] at h
        subst h
        rfl
      · intro h
        unfold runTaskFresh at h
        revert h
        split
        · intro h
          simp at h
        · intro h
          simp only [Except.ok.injEq] at h
          subst h
          rfl
    · unfold runTaskFresh at h
      revert h
      split
      · intro h
        simp at h
      · intro h
        simp only [Except.ok.injEq] at h
        subst h
        rfl
  · intro α items body dur fuel out h
    exact runMap_ok_no_hash items body dur fuel out h

theorem output_hash_presence_witness :
    ((runExec hitWorld ndSpec).res = .ok freshNdOutput →
      freshNdOutput.hash = some (execKey hitWorld ndSpec)) ∧
    (runMap ([] : List String) (fun _ _ => .error "none") (fun _ => 1) 1 =
        some (.ok mapEmptyOutput) →
      mapEmptyOutput.hash = none) :=
  ⟨fun h => (output_hash_presence hitWorld ndSpec
      ⟨fun _ => "t", fun _ => none, "agent", .error "unused"⟩
      ⟨"agent", "p", [], [], none, none, none⟩).1 _ h,
    fun h => (output_hash_presence hitWorld ndSpec
      ⟨fun _ => "t", fun _ => none, "agent", .error "unused"⟩
      ⟨"agent", "p", [], [], none, none, none⟩).2.2 String [] (fun _ _ => .error "none")
      (fun _ => 1) 1 _ h⟩

/-- C8: for a command node that actually spawns (no cache hit), a non-zero
exit code fails the node with an error message carrying the captured
(trimmed) stderr, and an armed timeout (`timeout > 0`) that elapses before
the process closes kills the process (`SIGKILL`) and fails the node with the
timeout error. -/

theorem exec_failure_modes (w : ExecWorld) (spec : ExecNode)
    (hmiss : spec.deterministic = some false ∨ w.cache (execKey w spec) = none) :
    (∀ t, spec.timeout = some t → 0 < t → t < w.proc.closeTimeMs →
      (runExec w spec).res = .error ("exec timeout after " ++ toString t ++ "ms") ∧
      (runExec w spec).killed = true) ∧
    ((∀ t, spec.timeout = some t → ¬(0 < t ∧ t < w.proc.closeTimeMs)) →
      w.proc.exitCode ≠ 0 →
      (runExec w spec).res =
        .error ("exec failed (" ++ toString w.proc.exitCode ++ "): " ++
          spec.command ++ " " ++ String.intercalate " " spec.args ++ "\n" ++
          w.proc.stderr.trim)) := by
  obtain ⟨hres, hkill, -, -⟩ := runExec_miss w spec hmiss
  constructor
  · intro t ht h1 h2
    rw [hres, hkill, runExecFresh_timeout w spec (execKey w spec) t ht h1 h2]
    exact ⟨rfl, rfl⟩
  · intro hnt hexit
    rw [hres, runExecFresh_no_timeout w spec (execKey w spec) hnt]
    unfold runExecClosed
    rw [if_pos hexit]

theorem exec_failure_modes_witness :
    ((runExec slowWorld timedSpec).res =
        .error ("exec timeout after " ++ toString 5 ++ "ms") ∧
      (runExec slowWorld timedSpec).killed = true) ∧
    (runExec failWorld failSpec).res =
      .error ("exec failed (" ++ toString (1 : Int) ++ "): " ++ "false" ++ " " ++
        String.intercalate " " [] ++ "\n" ++ "boom".trim) := by
  constructor
  · exact (exec_failure_modes slowWorld timedSpec (Or.inr rfl)).1 5 rfl
      (by decide) (by decide)
  · exact (exec_failure_modes failWorld failSpec (Or.inr rfl)).2
      (fun t ht => by cases ht) (by decide)

/-- C10: with the determinism flag left unset, an exec node is treated as
deterministic — the cache is read before spawning and a fresh successful
output is written back — while a task node is treated as non-deterministic
and neither reads nor writes the cache; for exec nodes only an explicit
`deterministic: false` disables caching (an explicit `true` also reads). -/

theorem unset_determinism_defaults (w : ExecWorld) (spec : ExecNode)
    (tw : TaskWorld) (tspec : TaskNode) :
    (spec.deterministic = none →
      (runExec w spec).cacheReads = [execKey w spec] ∧
      (∀ out, (runExec w spec).res = .ok out → out.cached = some false →
        (runExec w spec).cacheWrites = [(execKey w spec, out)])) ∧
    (spec.deterministic = some true →
      (runExec w spec).cacheReads = [execKey w spec]) ∧
    (spec.deterministic = some false →
      (runExec w spec).cacheReads = [] ∧ (runExec w spec).cacheWrites = []) ∧
    (tspec.deterministic = none →
      (runTask tw tspec).cacheReads = [] ∧ (runTask tw tspec).cacheWrites = []) := by
  refine ⟨?_, ?_, ?_, ?_⟩
  · intro hdet
    have hd : spec.deterministic ≠ some false := by rw [hdet]; simp
    constructor
    · unfold runExec
      rw [if_pos hd]
      split <;> rfl
    · intro out hres hcached
      unfold runExec at hres ⊢
      rw [if_pos hd] at hres ⊢
      revert hres
      split
      · intro hres
        simp only [Except.ok.injEq] at hres
        subst hres
        simp at hcached
      · intro hres
        exact runExecFresh_writes_det w spec (execKey w spec) out hd hres
  · intro hdet
    have hd : spec.deterministic ≠ some false := by rw [hdet]; simp
    unfold runExec
    rw [if_pos hd]
    split <;> rfl
  · intro hdet
    have hd : ¬ spec.deterministic ≠ some false := fun hc => hc hdet
    unfold runExec
    rw [if_neg hd]
    exact ⟨runExecFresh_cacheReads w spec (execKey w spec),
      runExecFresh_writes_nd w spec (execKey w spec) hdet⟩
  · intro hdet
    have hd : ¬ tspec.deterministic = some true := by rw [hdet]; simp
    unfold runTask
    rw [if_neg hd]
    exact ⟨runTaskFresh_cacheReads tw tspec (taskKey tw tspec),
      runTaskFresh_writes_nd tw tspec (taskKey tw tspec) (by rw [hdet]; simp)⟩

theorem unset_determinism_defaults_witness :
    ((runExec hitWorld hitSpec).cacheReads = [execKey hitWorld hitSpec] ∧
      (runExec hitWorld ndSpec).cacheReads = [] ∧
      (runExec hitWorld ndSpec).cacheWrites = []) ∧
    (runTask ⟨fun _ => "t", fun _ => none, "agent",
        .ok ⟨.agent "done", none, none⟩⟩
      ⟨"agent", "p", [], [], none, none, none⟩).cacheReads = [] ∧
    (runTask ⟨fun _ => "t", fun _ => none, "agent",
        .ok ⟨.agent "done", none, none⟩⟩
      ⟨"agent", "p", [], [], none, none, none⟩).cacheWrites = [] := by
  refine ⟨⟨?_, ?_, ?_⟩, ?_, ?_⟩
  · exact ((unset_determinism_defaults hitWorld hitSpec
      ⟨fun _ => "t", fun _ => none, "agent", .error "u"⟩
      ⟨"agent", "p", [], [], none, none, none⟩).1 rfl).1
  · exact ((unset_determinism_defaults hitWorld ndSpec
      ⟨fun _ => "t", fun _ => none, "agent", .error "u"⟩
      ⟨"agent", "p", [], [], none, none, none⟩).2.2.1 rfl).1
  · exact ((unset_determinism_defaults hitWorld ndSpec
      ⟨fun _ => "t", fun _ => none, "agent", .error "u"⟩
      ⟨"agent", "p", [], [], none, none, none⟩).2.2.1 rfl).2
  · exact ((unset_determinism_defaults hitWorld hitSpec
      ⟨fun _ => "t", fun _ => none, "agent", .ok ⟨.agent "done", none, none⟩⟩
      ⟨"agent", "p", [], [], none, none, none⟩).2.2.2 rfl).1
  · exact ((unset_determinism_defaults hitWorld hitSpec
      ⟨fun _ => "t", fun _ => none, "agent", .ok ⟨.agent "done", none, none⟩⟩
      ⟨"agent", "p", [], [], none, none, none⟩).2.2.2 rfl).2

theorem cache_hit_skips_execution_witness :
    ((runExec hitWorld hitSpec).spawned = false ∧
      (runExec hitWorld hitSpec).res =
        .ok { storedOutput with
                hash := some (execKey hitWorld hitSpec), cached := some true } ∧
      (runExec hitWorld hitSpec).cacheWrites = []) := by
  have h := cache_hit_skips_execution hitWorld hitSpec storedOutput
    (by decide) (by rfl)
  exact ⟨h.1.1, h.1.2.1, h.1.2.2.2.2.2.2⟩

/-!
## Fan-out scheduler lemmas
-/

theorem fillRun_run_le {α : Type} (limit : Nat) :
    ∀ (q : List (Nat × MapTask α)) run, run.length ≤ limit →
      ((fillRun limit q run).2).length ≤ limit := by
  intro q
  induction q with
  | nil => intro run h; exact h
  | cons t ts ih =>
    intro run h
    unfold fillRun
    split_ifs with hlt
    · exact ih _ (by simpa using hlt)
    · exact h

theorem tickRun_run_le {α : Type} :
    ∀ (run : List (Nat × Nat × Except String α)), (tickRun run).1.length ≤ run.length := by
  intro run
  induction run with
  | nil => simp [tickRun]
  | cons r rest ih =>
    obtain ⟨i, rem, out⟩ := r
    unfold tickRun
    split_ifs
    · simp only [List.length_cons]
      omega
    · simp only [List.length_cons]
      omega

theorem schedStep_running_le {α : Type} (limit : Nat) (s : MapSched α)
    (h : s.running.length ≤ limit) :
    (schedStep limit s).running.length ≤ limit :=
  le_trans (tickRun_run_le _) (fillRun_run_le limit _ _ h)

theorem iterate_running_le {α : Type} (limit : Nat) :
    ∀ (k : Nat) (s : MapSched α), s.running.length ≤ limit →
      ((schedStep limit)^[k] s).running.length ≤ limit := by
  intro k
  induction k with
  | zero => exact fun s h => h
  | succ k ih =>
    intro s h
    rw [Function.iterate_succ_apply]
    exact ih _ (schedStep_running_le limit s h)

theorem fillRun_mem {α : Type} (limit : Nat) :
    ∀ (q : List (Nat × MapTask α)) run (i : Nat),
      (i ∈ q.map (fun p => p.1) ∨ i ∈ run.map (fun r => r.1)) →
      (i ∈ (fillRun limit q run).1.map (fun p => p.1) ∨
        i ∈ (fillRun limit q run).2.map (fun r => r.1)) := by
  intro q
  induction q with
  | nil =>
    intro run i h
    exact h
  | cons t ts ih =>
    intro run i h
    unfold fillRun
    split_ifs with hlt
    · apply ih
      rcases h with h | h
      · rw [List.map_cons] at h
        rcases List.mem_cons.mp h with h | h
        · right
          rw [List.map_append]
          exact List.mem_append_right _ (by simp [h])
        · exact Or.inl h
      · right
        rw [List.map_append]
        exact List.mem_append_left _ h
    · exact h

theorem fillRun_pres {α : Type} (limit : Nat) (R : Nat → Except String α → Prop) :
    ∀ (q : List (Nat × MapTask α)) run,
      (∀ p ∈ q, R p.1 p.2.outcome) → (∀ r ∈ run, R r.1 r.2.2) →
      (∀ p ∈ (fillRun limit q run).1, R p.1 p.2.outcome) ∧
      (∀ r ∈ (fillRun limit q run).2, R r.1 r.2.2) := by
  intro q
  induction q with
  | nil => exact fun run hq hr => ⟨hq, hr⟩
  | cons t ts ih =>
    intro run hq hr
    unfold fillRun
    split_ifs with hlt
    · apply ih
      · exact fun p hp => hq p (List.mem_cons_of_mem _ hp)
      · intro r hrm
        rcases List.mem_append.mp hrm with h | h
        · exact hr r h
        · obtain rfl := List.mem_singleton.mp h
          exact hq t (List.mem_cons_self _ _)
    · exact ⟨hq, hr⟩

theorem tickRun_mem {α : Type} :
    ∀ (run : List (Nat × Nat × Except String α)) (i : Nat),
      i ∈ run.map (fun r => r.1) →
      i ∈ (tickRun run).1.map (fun r => r.1) ∨ i ∈ (tickRun run).2.map (fun d => d.1) := by
  intro run
  induction run with
  | nil => intro i h; simp at h
  | cons r rest ih =>
    obtain ⟨j, rem, out⟩ := r
    intro i h
    rw [List.map_cons] at h
    unfold tickRun
    split_ifs
    · rcases List.mem_cons.mp h with h | h
      · right
        rw [List.map_cons]
        exact h ▸ List.mem_cons_self _ _
      · rcases ih i h with h' | h'
        · exact Or.inl h'
        · right
          rw [List.map_cons]
          exact List.mem_cons_of_mem _ h'
    · rcases List.mem_cons.mp h with h | h
      · left
        rw [List.map_cons]
        exact h ▸ List.mem_cons_self _ _
      · rcases ih i h with h' | h'
        · left
          rw [List.map_cons]
          exact List.mem_cons_of_mem _ h'
        · exact Or.inr h'

theorem tickRun_pres {α : Type} (R : Nat → Except String α → Prop) :
    ∀ (run : List (Nat × Nat × Except String α)),
      (∀ r ∈ run, R r.1 r.2.2) →
      (∀ r ∈ (tickRun run).1, R r.1 r.2.2) ∧ (∀ d ∈ (tickRun run).2, R d.1 d.2) := by
  intro run
  induction run with
  | nil => intro _; exact ⟨by simp [tickRun], by simp [tickRun]⟩
  | cons r rest ih =>
    obtain ⟨j, rem, out⟩ := r
    intro h
    have hrest := ih (fun r hr => h r (List.mem_cons_of_mem _ hr))
    have hhead := h (j, rem, out) (List.mem_cons_self _ _)
    unfold tickRun
    split_ifs
    · refine ⟨hrest.1, ?_⟩
      intro d hd
      rcases List.mem_cons.mp hd with rfl | hd'
      · exact hhead
      · exact hrest.2 d hd'
    · refine ⟨?_, hrest.2⟩
      intro r hr
      rcases List.mem_cons.mp hr with rfl | hr'
      · exact hhead
      · exact hrest.1 r hr'

theorem schedStep_inv {α : Type} (limit : Nat) (R : Nat → Except String α → Prop)
    (n : Nat) (s : MapSched α) (hinv : MapInv R n s) : MapInv R n (schedStep limit s) := by
  obtain ⟨h1, h2, h3, h4⟩ := hinv
  obtain ⟨hq, hr⟩ := fillRun_pres limit R s.queue s.running h1 h2
  obtain ⟨hr', hd'⟩ := tickRun_pres R _ hr
  refine ⟨hq, hr', ?_, ?_⟩
  · intro d hd
    rcases List.mem_append.mp hd with h | h
    · exact h3 d h
    · exact hd' d h
  · intro i hi
    simp only [schedStep, List.map_append, List.mem_append]
    rcases h4 i hi with h | h | h
    · rcases fillRun_mem limit s.queue s.running i (Or.inl h) with h' | h'
      · exact Or.inl h'
      · rcases tickRun_mem _ i h' with h'' | h''
        · exact Or.inr (Or.inl h'')
        · exact Or.inr (Or.inr (Or.inr h''))
    · rcases fillRun_mem limit s.queue s.running i (Or.inr h) with h' | h'
      · exact Or.inl h'
      · rcases tickRun_mem _ i h' with h'' | h''
        · exact Or.inr (Or.inl h'')
        · exact Or.inr (Or.inr (Or.inr h''))
    · exact Or.inr (Or.inr (Or.inl h))

theorem schedRun_inv {α : Type} (limit : Nat) (R : Nat → Except String α → Prop) (n : Nat) :
    ∀ (fuel : Nat) (s : MapSched α) (done : List (Nat × Except String α)),
      MapInv R n s → schedRun limit fuel s = some done →
      (∀ d ∈ done, R d.1 d.2) ∧ ∀ i, i < n → i ∈ done.map (fun d => d.1) := by
  intro fuel
  induction fuel with
  | zero =>
    intro s done _ h
    simp [schedRun] at h
  | succ fuel ih =>
    intro s done hinv h
    simp only [schedRun] at h
    split_ifs at h with hempty
    · simp only [Option.some.injEq] at h
      subst h
      refine ⟨hinv.2.2.1, ?_⟩
      intro i hi
      rcases hinv.2.2.2 i hi with h' | h' | h'
      · rw [List.isEmpty_iff.mp hempty.1] at h'
        simp at h'
      · rw [List.isEmpty_iff.mp hempty.2] at h'
        simp at h'
      · exact h'
    · exact ih _ done (schedStep_inv limit R n s hinv) h

theorem firstErrorIn_eq_none {α : Type} :
    ∀ (done : List (Nat × Except String α)),
      (∀ d ∈ done, ∃ v, d.2 = .ok v) → firstErrorIn done = none := by
  intro done
  induction done with
  | nil => intro _; rfl
  | cons d rest ih =>
    intro h
    obtain ⟨v, hv⟩ := h d (List.mem_cons_self _ _)
    obtain ⟨i, out⟩ := d
    cases out with
    | error e => simp at hv
    | ok v' => exact ih (fun d hd => h d (List.mem_cons_of_mem _ hd))

theorem firstErrorIn_exists_error {α : Type} :
    ∀ (done : List (Nat × Except String α)) (i : Nat) (e : String),
      (i, Except.error e) ∈ done → ∃ e', firstErrorIn done = some e' := by
  intro done
  induction done with
  | nil => intro i e h; simp at h
  | cons d rest ih =>
    intro i e h
    obtain ⟨j, out⟩ := d
    cases out with
    | error e'' => exact ⟨e'', rfl⟩
    | ok v =>
      rcases List.mem_cons.mp h with h' | h'
      · simp at h'
      · exact ih i e h'

theorem lookupDone_eq {α : Type} (g : Nat → α) :
    ∀ (done : List (Nat × Except String α)) (i : Nat),
      (∀ d ∈ done, d.1 = i → d.2 = .ok (g i)) →
      i ∈ done.map (fun d => d.1) → lookupDone done i = some (g i) := by
  intro done
  induction done with
  | nil => intro i _ h; simp at h
  | cons d rest ih =>
    intro i hout hmem
    by_cases hd : d.1 = i
    · have hval := hout d (List.mem_cons_self _ _) hd
      unfold lookupDone
      rw [List.find?_cons_of_pos _ (by simp [hd])]
      obtain ⟨j, out⟩ := d
      simp only at hval
      rw [hval]
    · unfold lookupDone
      rw [List.find?_cons_of_neg _ (by simp [hd])]
      have hmem' : i ∈ rest.map (fun d => d.1) := by
        rw [List.map_cons] at hmem
        rcases List.mem_cons.mp hmem with h' | h'
        · exact absurd h'.symm hd
        · exact h'
      exact ih i (fun d' hd' he => hout d' (List.mem_cons_of_mem _ hd') he) hmem'

theorem mapM_all_some {α : Type} (k : Nat → Option α) (g : Nat → α) :
    ∀ (l : List Nat), (∀ i ∈ l, k i = some (g i)) → l.mapM k = some (l.map g) := by
  intro l
  induction l with
  | nil => intro _; rfl
  | cons a l ih =>
    intro h
    rw [List.map_cons, List.mapM_cons, h a (List.mem_cons_self _ _),
      ih (fun i hi => h i (List.mem_cons_of_mem _ hi))]
    rfl

theorem mapInit_inv {α : Type} (items : List α)
    (body : Nat → α → Except String ResultVal) (dur : Nat → Nat) :
    MapInv (fun i o => o = mapOutcome items body i ∧ i < items.length)
      items.length (mapInit items body dur) := by
  refine ⟨?_, by simp [mapInit], by simp [mapInit], ?_⟩
  · intro p hp
    simp only [mapInit, List.mem_map, List.mem_range] at hp
    obtain ⟨i, hi, rfl⟩ := hp
    exact ⟨rfl, hi⟩
  · intro i hi
    left
    simp only [mapInit, List.map_map]
    simpa using hi

/-- C6: fan-out semantics. (1) Concurrency ceiling: from the initial state,
every scheduler state reachable in any number of steps runs at most 5 item
tasks at once. (2) Order: whenever every item's body succeeds, the node
succeeds and its result is the list of per-item results in input position
order — for every assignment of completion times `dur`, i.e. regardless of
completion order. (3) A single item failure fails the whole fan-out node. -/

theorem fanout_map_semantics {α : Type} (items : List α)
    (body : Nat → α → Except String ResultVal) :
    (∀ (dur : Nat → Nat) (k : Nat),
      ((schedStep 5)^[k] (mapInit items body dur)).running.length ≤ 5) ∧
    (∀ g : Nat → ResultVal,
      (∀ i, i < items.length → mapOutcome items body i = .ok (g i)) →
      ∀ (dur : Nat → Nat) (fuel : Nat) (done : List (Nat × Except String ResultVal)),
        schedRun 5 fuel (mapInit items body dur) = some done →
        runMap items body dur fuel =
          some (.ok (mapOutputOf items.length ((List.range items.length).map g)))) ∧
    (∀ (i : Nat) (e : String), i < items.length → mapOutcome items body i = .error e →
      ∀ (dur : Nat → Nat) (fuel : Nat) (done : List (Nat × Except String ResultVal)),
        schedRun 5 fuel (mapInit items body dur) = some done →
        ∃ e', runMap items body dur fuel = some (.error e')) := by
  refine ⟨?_, ?_, ?_⟩
  · intro dur k
    exact iterate_running_le 5 k _ (by simp [mapInit])
  · intro g hg dur fuel done hdone
    obtain ⟨hout, hmem⟩ := schedRun_inv 5 _ items.length fuel _ done
      (mapInit_inv items body dur) hdone
    have hfe : firstErrorIn done = none := by
      apply firstErrorIn_eq_none
      intro d hd
      obtain ⟨heq, hlt⟩ := hout d hd
      exact ⟨g d.1, heq.trans (hg d.1 hlt)⟩
    have hcol : collectResults items.length done =
        some ((List.range items.length).map g) := by
      unfold collectResults
      apply mapM_all_some
      intro i hi
      rw [List.mem_range] at hi
      apply lookupDone_eq
      · intro d hd he
        obtain ⟨heq, hlt⟩ := hout d hd
        rw [heq, he, hg i hi]
      · exact hmem i hi
    simp only [runMap, hdone, hfe, hcol]
  · intro i e hi herr dur fuel done hdone
    obtain ⟨hout, hmem⟩ := schedRun_inv 5 _ items.length fuel _ done
      (mapInit_inv items body dur) hdone
    have hexists : (i, Except.error e) ∈ done := by
      have := hmem i hi
      rw [List.mem_map] at this
      obtain ⟨d, hd, hdi⟩ := this
      obtain ⟨heq, -⟩ := hout d hd
      have : d = (i, Except.error e) := by
        obtain ⟨j, out⟩ := d
        simp only at hdi heq
        subst hdi
        rw [herr] at heq
        rw [heq]
      exact this ▸ hd
    obtain ⟨e', he'⟩ := firstErrorIn_exists_error done i e hexists
    refine ⟨e', ?_⟩
    simp only [runMap, hdone, he']

theorem fanout_map_semantics_witness :
    ((schedStep 5)^[2] (mapInit itemsW bodyW durW)).running.length ≤ 5 ∧
    runMap itemsW bodyW durW 10 =
      some (.ok (mapOutputOf 3 [.agent "a", .agent "b", .agent "c"])) ∧
    (∃ e', runMap itemsW bodyFailW durW 10 = some (.error e')) := by
  have h := fanout_map_semantics itemsW bodyW
  have hf := fanout_map_semantics itemsW bodyFailW
  refine ⟨h.1 durW 2, ?_, ?_⟩
  · have horder := h.2.1 gW
      (fun i hi => by
        have h3 : i < 3 := hi
        interval_cases i <;> rfl)
      durW 10
      [(2, .ok (.agent "c")), (1, .ok (.agent "b")), (0, .ok (.agent "a"))] rfl
    exact horder
  · exact hf.2.2 1 "item failed" (by decide) rfl durW 10
      [(2, .ok (.agent "c")), (1, .error "item failed"), (0, .ok (.agent "a"))] rfl

end Yoke
